import Mathlib

/-
Verification of the ignore-hub template merge engine, template classifier and
template query resolver.  Strings are modelled as `List Char`; JavaScript
string operations (split, join, trim, regex replacement of the generated
block) are embedded as executable Lean functions translated from the source.
-/

set_option maxRecDepth 8000 in
/-- Characters of a string literal. -/
def str (s : String) : List Char := s.data

/-- `isPre p s` is true when `p` is a prefix of `s` (JS `startsWith`). -/
def isPre : List Char → List Char → Bool
  | [], _ => true
  | _ :: _, [] => false
  | a :: p, b :: s => if a = b then isPre p s else false

/-- Index of the first occurrence of `pat` in `s`, if any (JS `indexOf`,
also the leftmost-match rule of a regex search for a literal). -/
def findIdx (pat : List Char) : List Char → Option Nat
  | [] => if isPre pat [] then some 0 else none
  | c :: rest => if isPre pat (c :: rest) then some 0 else (findIdx pat rest).map (· + 1)

/-- Whether `pat` occurs somewhere in `s` (JS `includes`). -/
def occursIn (pat s : List Char) : Bool := (findIdx pat s).isSome

/-- The JS whitespace set used by `String.prototype.trim`/`trimEnd`. -/
def isJsWhitespace (c : Char) : Bool :=
  decide (c.toNat ∈ [9, 10, 11, 12, 13, 32, 160, 5760, 8192, 8193, 8194, 8195,
    8196, 8197, 8198, 8199, 8200, 8201, 8202, 8232, 8233, 8239, 8287, 12288, 65279])

/-- JS `String.prototype.trimEnd`. -/
def trimEnd (s : List Char) : List Char := (s.reverse.dropWhile isJsWhitespace).reverse

/-- JS `String.prototype.trim`. -/
def jsTrim (s : List Char) : List Char := trimEnd (s.dropWhile isJsWhitespace)

/-- `content.replace(/\r\n?/g, "\n")` from the merge module. -/
def normalizeNewlines : List Char → List Char
  | [] => []
  | [c] => if c = '\r' then ['\n'] else [c]
  | c :: d :: rest =>
    if c = '\r' then
      if d = '\n' then '\n' :: normalizeNewlines rest
      else '\n' :: normalizeNewlines (d :: rest)
    else c :: normalizeNewlines (d :: rest)

/-- JS `s.split("\n")`. -/
def splitOnNl : List Char → List (List Char)
  | [] => [[]]
  | c :: rest =>
    if c = '\n' then [] :: splitOnNl rest
    else
      match splitOnNl rest with
      | [] => [[c]]
      | l :: ls => (c :: l) :: ls

/-- JS `lines.join("\n")`. -/
def joinNl : List (List Char) → List Char
  | [] => []
  | [l] => l
  | l :: rest => l ++ '\n' :: joinNl rest

def GENERATED_BLOCK_START : List Char := str "### IGNORE-HUB GENERATED START"

def GENERATED_BLOCK_END : List Char := str "### IGNORE-HUB GENERATED END"

/-- One global pass of `content.replace(GENERATED_BLOCK_PATTERN, "")` where the
pattern is `START[\s\S]*?END\n?`: repeatedly find the leftmost start sentinel,
the first end sentinel after it, delete through the end sentinel plus an
optional following newline, and continue scanning after the deleted match.
`fuel` bounds the recursion; `removeBlocks` supplies enough fuel. -/
def removeBlocksFuel : Nat → List Char → List Char
  | 0, s => s
  | fuel + 1, s =>
    match findIdx GENERATED_BLOCK_START s with
    | none => s
    | some i =>
      match findIdx GENERATED_BLOCK_END (s.drop (i + GENERATED_BLOCK_START.length)) with
      | none => s
      | some j =>
        let pre := s.take i
        let after := (s.drop (i + GENERATED_BLOCK_START.length)).drop (j + GENERATED_BLOCK_END.length)
        let after2 := if after.head? = some '\n' then after.tail else after
        pre ++ removeBlocksFuel fuel after2

def removeBlocks (s : List Char) : List Char := removeBlocksFuel s.length s

/-- `stripGeneratedBlock` from the merge module: normalize newlines, delete all
sentinel-delimited generated blocks, trim trailing whitespace. -/
def stripGeneratedBlock (content : List Char) : List Char :=
  trimEnd (removeBlocks (normalizeNewlines content))

/-- `isRuleLine` from the merge module: trimmed line is non-empty and does not
start with `#`. -/
def isRuleLine (line : List Char) : Bool :=
  match jsTrim line with
  | [] => false
  | c :: _ => decide (c ≠ '#')

/-- `normalizeRuleLine` from the merge module. -/
def normalizeRuleLine (line : List Char) : List Char := jsTrim line

/-- Accumulator pass of `collectRuleSet`; the JS `Set` is modelled as a list
with insertion-ordered, membership-tested adds. -/
def collectRulesAux : List (List Char) → List (List Char) → List (List Char)
  | acc, [] => acc
  | acc, l :: rest =>
    if isRuleLine l then
      if normalizeRuleLine l ∈ acc then collectRulesAux acc rest
      else collectRulesAux (acc ++ [normalizeRuleLine l]) rest
    else collectRulesAux acc rest

/-- `collectRuleSet` from the merge module. -/
def collectRuleSet (content : List Char) : List (List Char) :=
  collectRulesAux [] (splitOnNl (normalizeNewlines content))

/-- `trimTrailingBlankLines` from the merge module: drop trailing lines equal
to the empty string. -/
def trimTrailingBlankLines (lines : List (List Char)) : List (List Char) :=
  (lines.reverse.dropWhile (fun l => l.isEmpty)).reverse

/-- Line pass of `dedupeTemplateSourceLines`: emit non-rule lines unchanged,
emit a rule line only if its trimmed value is not yet in the seen set, adding
it to the set when emitted.  Returns the emitted lines and the updated set. -/
def dedupeLinesAux : List (List Char) → List (List Char) → List (List Char) × List (List Char)
  | rules, [] => ([], rules)
  | rules, l :: rest =>
    if isRuleLine l then
      if normalizeRuleLine l ∈ rules then dedupeLinesAux rules rest
      else
        let p := dedupeLinesAux (normalizeRuleLine l :: rules) rest
        (l :: p.1, p.2)
    else
      let p := dedupeLinesAux rules rest
      (l :: p.1, p.2)

/-- `dedupeTemplateSourceLines` from the merge module (the mutated seen-rules
set is returned explicitly). -/
def dedupeTemplateSourceLines (source : List Char) (seenRules : List (List Char)) :
    List (List Char) × List (List Char) :=
  let p := dedupeLinesAux seenRules (splitOnNl (normalizeNewlines source))
  (trimTrailingBlankLines p.1, p.2)

inductive TemplateKind where
  | language
  | framework
  | global
deriving DecidableEq

/-- The literal kind strings `"language" | "framework" | "global"`. -/
def kindStr : TemplateKind → List Char
  | .language => str "language"
  | .framework => str "framework"
  | .global => str "global"

structure TemplateMeta where
  id : List Char
  name : List Char
  path : List Char
  kind : TemplateKind
deriving DecidableEq

structure TemplateWithSource where
  meta : TemplateMeta
  source : List Char
deriving DecidableEq

structure MergeGitignoreOptions where
  includeWatermark : Bool
  useSimpleSectionSeparator : Bool
deriving DecidableEq

/-- `getSectionHeader` from the merge module. -/
def getSectionHeader (t : TemplateWithSource) (useSimple : Bool) : List Char :=
  if useSimple then str "## " ++ t.meta.name
  else str "### " ++ kindStr t.meta.kind ++ str ": " ++ t.meta.name

/-- The per-template loop body of `buildGeneratedBlock`: for each template push
its section header, its deduplicated source lines, and a blank separator line,
threading the seen-rules set through all templates. -/
def buildTemplateSections (useSimple : Bool) :
    List TemplateWithSource → List (List Char) → List (List Char) × List (List Char)
  | [], rules => ([], rules)
  | t :: rest, rules =>
    let sec := dedupeTemplateSourceLines t.source rules
    let tail := buildTemplateSections useSimple rest sec.2
    (getSectionHeader t useSimple :: (sec.1 ++ [[]] ++ tail.1), tail.2)

/-- `buildGeneratedBlock` from the merge module. -/
def buildGeneratedBlock (templates : List TemplateWithSource) (existingRules : List (List Char))
    (options : MergeGitignoreOptions) : List Char :=
  let sections := (buildTemplateSections options.useSimpleSectionSeparator templates existingRules).1
  let lines0 := (if options.includeWatermark then [GENERATED_BLOCK_START] else []) ++ sections
  let lines1 := if lines0.getLast? = some [] then lines0.dropLast else lines0
  let lines2 := if options.includeWatermark then lines1 ++ [GENERATED_BLOCK_END] else lines1
  if lines2 = [] then [] else joinNl lines2

/-- `composeOutput` from the merge module. -/
def composeOutput (manualContent generatedBlock : List Char) : List Char :=
  let normalizedManual := trimEnd (normalizeNewlines manualContent)
  if normalizedManual = [] then generatedBlock ++ ['\n']
  else normalizedManual ++ '\n' :: '\n' :: (generatedBlock ++ ['\n'])

structure MergeGitignoreInput where
  existingContent : Option (List Char)
  templates : List TemplateWithSource
  includeWatermark : Bool := true
  useSimpleSectionSeparator : Bool := false

/-- `mergeGitignore` from the merge module. -/
def mergeGitignore (input : MergeGitignoreInput) : List Char :=
  let source := input.existingContent.getD []
  let manualContent := stripGeneratedBlock source
  let existingRules := collectRuleSet manualContent
  let generatedBlock := buildGeneratedBlock input.templates existingRules
    ⟨input.includeWatermark, input.useSimpleSectionSeparator⟩
  composeOutput manualContent generatedBlock

/-- `normalizeTemplateName` from the classification module: lowercase and keep
only `[a-z0-9]` characters (lowercasing modelled for the ASCII range). -/
def normalizeTemplateName (name : List Char) : List Char :=
  (name.map Char.toLower).filter
    (fun c => ('a' ≤ c && c ≤ 'z') || ('0' ≤ c && c ≤ '9'))

/-- The `LANGUAGE_TEMPLATE_NAMES` set (already normalized). -/
def LANGUAGE_TEMPLATE_NAMES : List (List Char) :=
  [str "AL", str "Actionscript", str "Ada", str "Agda", str "C", str "C++",
   str "Clojure", str "CommonLisp", str "D", str "Dart", str "Delphi",
   str "Elixir", str "Elm", str "Erlang", str "Fortran", str "Gleam", str "Go",
   str "Groovy", str "Haskell", str "Haxe", str "Idris", str "Java",
   str "JavaScript", str "Julia", str "Kotlin", str "Lua", str "Luau",
   str "Nim", str "Nix", str "OCaml", str "Objective-C", str "Perl", str "PHP",
   str "PureScript", str "Python", str "R", str "Racket", str "Raku",
   str "ReScript", str "Ruby", str "Rust", str "Scala", str "Scheme",
   str "Swift", str "TeX", str "VBA", str "Zig"].map normalizeTemplateName

/-- The `FRAMEWORK_TEMPLATE_NAMES` set (already normalized). -/
def FRAMEWORK_TEMPLATE_NAMES : List (List Char) :=
  [str "Angular", str "AppEngine", str "CakePHP", str "CFWheels",
   str "CodeIgniter", str "Concrete5", str "CraftCMS", str "Dotnet",
   str "Drupal", str "EPiServer", str "ExpressionEngine", str "Firebase",
   str "FuelPHP", str "Grails", str "JENKINS_HOME", str "Jekyll", str "Joomla",
   str "Kohana", str "Laravel", str "Maven", str "Nanoc", str "Nestjs",
   str "Nextjs", str "Node", str "PlayFramework", str "Plone",
   str "Prestashop", str "Rails", str "Sass", str "SymphonyCMS",
   str "Symfony", str "Terraform", str "TurboGears2", str "Typo3",
   str "Unity", str "UnrealEngine", str "VisualStudio", str "WordPress",
   str "Yeoman", str "Yii", str "ZendFramework"].map normalizeTemplateName

/-- The `LANGUAGE_HINTS` list. -/
def LANGUAGE_HINTS : List (List Char) :=
  [str "python", str "java", str "kotlin", str "swift", str "ruby", str "rust",
   str "perl", str "php", str "haskell", str "scala", str "clojure",
   str "ocaml", str "nim", str "nix", str "racket", str "raku", str "lua",
   str "dart", str "elixir", str "erlang", str "fortran", str "julia",
   str "zig", str "cplusplus", str "objectivec", str "actionscript",
   str "typescript"]

/-- `ROOT_TEMPLATE_PATTERN = /^[^\/]+\.gitignore$/`: the path is a nonempty
slash-free base followed by the literal `.gitignore`. -/
def rootTemplateMatch (p : List Char) : Bool :=
  decide (10 < p.length) && isPre (str ".gitignore").reverse p.reverse &&
    (p.take (p.length - 10)).all (fun c => decide (c ≠ '/'))

/-- `GLOBAL_TEMPLATE_PATTERN = /^Global\/.+\.gitignore$/`: `Global/`, then at
least one non-line-terminator character, then the literal `.gitignore`. -/
def globalTemplateMatch (p : List Char) : Bool :=
  isPre (str "Global/") p &&
    (let rest := p.drop 7
     decide (10 < rest.length) && isPre (str ".gitignore").reverse rest.reverse &&
       (rest.take (rest.length - 10)).all
         (fun c => decide (c ≠ '\n') && decide (c ≠ '\r') &&
           decide (c.toNat ≠ 8232) && decide (c.toNat ≠ 8233)))

/-- `isSupportedTemplatePath` from the classification module. -/
def isSupportedTemplatePath (p : List Char) : Bool :=
  rootTemplateMatch p || globalTemplateMatch p

/-- `path.replace(GITIGNORE_FILE_SUFFIX, "")`: drop a trailing `.gitignore`. -/
def removeSuffix (s suf : List Char) : List Char :=
  if isPre suf.reverse s.reverse then (s.reverse.drop suf.length).reverse else s

/-- `getTemplateNameFromPath` from the classification module. -/
def getTemplateNameFromPath (path : List Char) : List Char :=
  let cleanedPath := removeSuffix path (str ".gitignore")
  if isPre (str "Global/") cleanedPath then cleanedPath.drop 7 else cleanedPath

/-- `getTemplateIdFromPath` from the classification module (both source
branches return `cleanedPath` unchanged). -/
def getTemplateIdFromPath (path : List Char) : List Char :=
  let cleanedPath := removeSuffix path (str ".gitignore")
  if isPre (str "Global/") cleanedPath then cleanedPath else cleanedPath

/-- `classifyRootTemplate` from the classification module. -/
def classifyRootTemplate (templateName : List Char) : TemplateKind :=
  let normalized := normalizeTemplateName templateName
  if normalized ∈ LANGUAGE_TEMPLATE_NAMES then .language
  else if normalized ∈ FRAMEWORK_TEMPLATE_NAMES then .framework
  else if LANGUAGE_HINTS.any (fun hint => occursIn hint normalized) then .language
  else .framework

/-- `classifyTemplatePath` from the classification module. -/
def classifyTemplatePath (path : List Char) : Option TemplateMeta :=
  if ¬ isSupportedTemplatePath path then none
  else
    let name := getTemplateNameFromPath path
    let id := getTemplateIdFromPath path
    if isPre (str "Global/") path then some ⟨id, name, path, .global⟩
    else some ⟨id, name, path, classifyRootTemplate name⟩

inductive ResolutionIssueType where
  | unknown
  | ambiguous
deriving DecidableEq

structure TemplateResolutionMatch where
  template : TemplateMeta
deriving DecidableEq

structure TemplateResolutionIssue where
  «matches» : List TemplateMeta
  query : List Char
  rawQuery : List Char
  type : ResolutionIssueType
deriving DecidableEq

structure TemplateResolutionResult where
  issues : List TemplateResolutionIssue
  selected : List TemplateMeta
deriving DecidableEq

/-- The runtime error the resolver can raise: when alias expansion returns the
inherited constructor function instead of an array, the subsequent
`expandedQueries.map(...)` call throws a `TypeError`. -/
inductive ResolverError where
  | typeError
deriving DecidableEq

deriving instance DecidableEq for Except

/-- Outcome of the JS property read `TEMPLATE_ALIASES[q]`: an own alias entry,
an absent key (`undefined`), or — because the plain object literal inherits
from `Object.prototype` — the inherited `constructor` function for the key
`"constructor"`, a value that is neither an array nor nullish. -/
inductive AliasLookup where
  | hit (aliases : List (List Char))
  | miss
  | inheritedConstructor
deriving DecidableEq

/-- The `TEMPLATE_ALIASES` object-literal lookup, keyed by normalized query.
Normalized queries consist only of lowercase letters and digits, and
`"constructor"` is the only `Object.prototype` property name of that shape, so
it is the only reachable inherited key; every other non-own key reads
`undefined`. -/
def templateAliases (q : List Char) : AliasLookup :=
  if q = str "js" then .hit [str "javascript"]
  else if q = str "nodejs" then .hit [str "node"]
  else if q = str "ts" then .hit [str "typescript"]
  else if q = str "csharp" then .hit [str "csharp", str "c#"]
  else if q = str "py" then .hit [str "python"]
  else if q = str "constructor" then .inheritedConstructor
  else .miss

/-- `expandAliases` from the resolution module:
`TEMPLATE_ALIASES[normalized] ?? [normalized]`.  An own entry or an absent key
yields a string array (`some`); the key `"constructor"` yields the inherited
constructor function, which is not nullish — so `??` does not apply — and not
an array, modelled as `none`. -/
def expandAliases (query : List Char) : Option (List (List Char)) :=
  match templateAliases (normalizeTemplateName query) with
  | .hit aliases => some aliases
  | .inheritedConstructor => none
  | .miss => some [normalizeTemplateName query]

/-- `dedupeTemplateIds` with an explicit seen set (JS builds the set locally). -/
def dedupeTemplateIdsAux (seen : List (List Char)) : List TemplateMeta → List TemplateMeta
  | [] => []
  | t :: rest =>
    if t.id ∈ seen then dedupeTemplateIdsAux seen rest
    else t :: dedupeTemplateIdsAux (t.id :: seen) rest

/-- `dedupeTemplateIds` from the resolution module. -/
def dedupeTemplateIds (templates : List TemplateMeta) : List TemplateMeta :=
  dedupeTemplateIdsAux [] templates

/-- `templateMatchesExact` from the resolution module. -/
def templateMatchesExact (t : TemplateMeta) (normalizedQuery : List Char) : Bool :=
  normalizeTemplateName t.id = normalizedQuery || normalizeTemplateName t.name = normalizedQuery

/-- `templateMatchesQuery` from the resolution module. -/
def templateMatchesQuery (t : TemplateMeta) (normalizedQuery : List Char) : Bool :=
  normalizeTemplateName t.id = normalizedQuery ||
    normalizeTemplateName t.name = normalizedQuery ||
    occursIn normalizedQuery (normalizeTemplateName t.id) ||
    occursIn normalizedQuery (normalizeTemplateName t.name)

/-- `templateStartsWithQuery` from the resolution module. -/
def templateStartsWithQuery (t : TemplateMeta) (normalizedQuery : List Char) : Bool :=
  isPre normalizedQuery (normalizeTemplateName t.id) ||
    isPre normalizedQuery (normalizeTemplateName t.name)

/-- Code-point lexicographic comparison of strings (the embedding of
`localeCompare` on the ASCII data the resolver handles). -/
def strOrd : List Char → List Char → Ordering
  | [], [] => .eq
  | [], _ :: _ => .lt
  | _ :: _, [] => .gt
  | a :: x, b :: y =>
    if a.toNat < b.toNat then .lt
    else if b.toNat < a.toNat then .gt
    else strOrd x y

/-- The resolver sort comparator: `kind` first, then case-insensitive name
(`localeCompare` with base sensitivity, modelled as lowercased comparison). -/
def templateOrd (a b : TemplateMeta) : Ordering :=
  match strOrd (kindStr a.kind) (kindStr b.kind) with
  | .eq => strOrd (a.name.map Char.toLower) (b.name.map Char.toLower)
  | o => o

/-- Stable insertion used to model the (stable) JS `Array.prototype.sort`. -/
def insertTemplate (x : TemplateMeta) : List TemplateMeta → List TemplateMeta
  | [] => [x]
  | y :: rest => if templateOrd y x = .lt then y :: insertTemplate x rest else x :: y :: rest

/-- The resolution module's local `sortTemplates` (stable sort by
`templateOrd`). -/
def sortTemplates (templates : List TemplateMeta) : List TemplateMeta :=
  templates.foldr insertTemplate []

/-- `makeExactCandidates` from the resolution module. -/
def makeExactCandidates (templates : List TemplateMeta) (q : List Char) : List TemplateMeta :=
  sortTemplates (dedupeTemplateIds (templates.filter (fun t => templateMatchesExact t q)))

/-- `makeMatchQueryCandidates` from the resolution module. -/
def makeMatchQueryCandidates (templates : List TemplateMeta) (q : List Char) : List TemplateMeta :=
  sortTemplates (dedupeTemplateIds (templates.filter (fun t => templateMatchesQuery t q)))

/-- `makeFallbackCandidates` from the resolution module. -/
def makeFallbackCandidates (templates : List TemplateMeta) (q : List Char) : List TemplateMeta :=
  sortTemplates (dedupeTemplateIds (templates.filter (fun t => templateStartsWithQuery t q)))

/-- First-occurrence deduplication of strings (`[...new Set(xs)]`). -/
def dedupeKeepFirstAux (seen : List (List Char)) : List (List Char) → List (List Char)
  | [] => []
  | x :: rest =>
    if x ∈ seen then dedupeKeepFirstAux seen rest
    else x :: dedupeKeepFirstAux (x :: seen) rest

def dedupeKeepFirst (xs : List (List Char)) : List (List Char) := dedupeKeepFirstAux [] xs

/-- The candidate query list of `resolveSingleQuery` once alias expansion has
produced an array `expanded`:
`[...new Set([...expanded.map(normalize), rawNormalized])]`. -/
def directQueriesFrom (expanded : List (List Char)) (rawQuery : List Char) : List (List Char) :=
  dedupeKeepFirst (expanded.map normalizeTemplateName ++ [normalizeTemplateName rawQuery])

/-- The per-candidate loop of `resolveSingleQuery`: exact pass then substring
pass for each candidate query in order; every source return is a singleton
array, modelled as a single match-or-issue value. -/
def resolveDirect (templates : List TemplateMeta) (rawQuery : List Char) :
    List (List Char) → Option (TemplateResolutionMatch ⊕ TemplateResolutionIssue)
  | [] => none
  | q :: rest =>
    match makeExactCandidates templates q with
    | [m] => some (.inl ⟨m⟩)
    | _ :: _ :: _ => some (.inr ⟨makeExactCandidates templates q, q, rawQuery, .ambiguous⟩)
    | [] =>
      match makeMatchQueryCandidates templates q with
      | [m] => some (.inl ⟨m⟩)
      | _ :: _ :: _ => some (.inr ⟨makeMatchQueryCandidates templates q, q, rawQuery, .ambiguous⟩)
      | [] => resolveDirect templates rawQuery rest

/-- `resolveSingleQuery` from the resolution module.  Its first statement maps
`normalize` over the alias expansion; for a query normalizing to
`"constructor"` that expansion is the inherited constructor function, on which
`.map` is not a function, so the call throws a `TypeError`. -/
def resolveSingleQuery (templates : List TemplateMeta) (rawQuery : List Char) :
    Except ResolverError (TemplateResolutionMatch ⊕ TemplateResolutionIssue) :=
  match expandAliases rawQuery with
  | none => .error .typeError
  | some expanded =>
    let directQueries := directQueriesFrom expanded rawQuery
    match resolveDirect templates rawQuery directQueries with
    | some r => .ok r
    | none =>
      let dedupedFallback :=
        dedupeTemplateIds (directQueries.flatMap (fun q => makeFallbackCandidates templates q))
      match dedupedFallback with
      | [m] => .ok (.inl ⟨m⟩)
      | _ =>
        .ok (.inr ⟨dedupedFallback.take 8,
          directQueries.headD (normalizeTemplateName rawQuery), rawQuery, .unknown⟩)

/-- The accumulation loop of `resolveTemplateQueries`; an exception thrown by
`resolveSingleQuery` propagates and aborts the whole call. -/
def resolveQueriesAux (templates : List TemplateMeta) :
    List (List Char) → List TemplateMeta → List TemplateResolutionIssue → List (List Char) →
      Except ResolverError TemplateResolutionResult
  | [], selected, issues, _ => .ok ⟨issues, selected⟩
  | rawQuery :: rest, selected, issues, seen =>
    let trimmedQuery := jsTrim rawQuery
    if trimmedQuery = [] then resolveQueriesAux templates rest selected issues seen
    else
      match resolveSingleQuery templates trimmedQuery with
      | .error e => .error e
      | .ok (.inl m) =>
        if m.template.id ∈ seen then resolveQueriesAux templates rest selected issues seen
        else resolveQueriesAux templates rest (selected ++ [m.template]) issues (m.template.id :: seen)
      | .ok (.inr issue) => resolveQueriesAux templates rest selected (issues ++ [issue]) seen

/-- `resolveTemplateQueries` from the resolution module (the source's final
branch returns `{selected, issues}` in both arms). -/
def resolveTemplateQueries (templates : List TemplateMeta) (rawQueries : List (List Char)) :
    Except ResolverError TemplateResolutionResult :=
  resolveQueriesAux templates rawQueries [] [] []

/-- Modelled from the spec's description of batch resolution: the trimmed,
non-blank queries in encounter order. -/
def nonBlankQueries (qs : List (List Char)) : List (List Char) :=
  (qs.map jsTrim).filter (fun q => decide (q ≠ []))

/-- The per-query successful resolutions of a batch, in encounter order. -/
def resolvedMatches (tpls : List TemplateMeta) (qs : List (List Char)) : List TemplateMeta :=
  (nonBlankQueries qs).filterMap
    (fun q => match resolveSingleQuery tpls q with
      | .ok (.inl m) => some m.template
      | _ => none)

/-- The per-query resolution issues of a batch, in encounter order. -/
def resolvedIssues (tpls : List TemplateMeta) (qs : List (List Char)) :
    List TemplateResolutionIssue :=
  (nonBlankQueries qs).filterMap
    (fun q => match resolveSingleQuery tpls q with
      | .ok (.inr issue) => some issue
      | _ => none)

/-- Closed strings used by concrete witnesses and counterexamples. -/
def demoNodeTemplate : TemplateWithSource :=
  ⟨⟨str "Node", str "Node", str "Node.gitignore", .framework⟩, str "# Node\nnode_modules/\ndist\n"⟩

def demoIndex : List TemplateMeta :=
  [⟨str "Node", str "Node", str "Node.gitignore", .framework⟩,
   ⟨str "Java", str "Java", str "Java.gitignore", .language⟩]

/-- The deduplication relation used to state rule uniqueness: two lines may
only share a trimmed value if one of them is not a rule line. -/
def dedupR (a b : List Char) : Prop :=
  isRuleLine a = true → isRuleLine b = true → normalizeRuleLine a ≠ normalizeRuleLine b

instance : DecidableRel dedupR := fun a b => by
  unfold dedupR
  infer_instance

/-- Cleanliness of a template: its name and source contain no carriage
returns and no sentinel substrings.  Every real template satisfies this. -/
def cleanTemplate (t : TemplateWithSource) : Prop :=
  '\r' ∉ t.meta.name ∧ '\r' ∉ t.source ∧
    occursIn GENERATED_BLOCK_START t.meta.name = false ∧
    occursIn GENERATED_BLOCK_END t.meta.name = false ∧
    occursIn GENERATED_BLOCK_START t.source = false ∧
    occursIn GENERATED_BLOCK_END t.source = false

instance (t : TemplateWithSource) : Decidable (cleanTemplate t) := by
  unfold cleanTemplate
  infer_instance

/-- A content string assembled from complete sentinel-delimited blocks: each
segment contributes manual text, a start sentinel, an interior, an end
sentinel and a newline; `tail` is the final manual text. -/
def assembleBlocks : List (List Char × List Char) → List Char → List Char
  | [], tail => tail
  | (a, b) :: rest, tail =>
    a ++ (GENERATED_BLOCK_START ++ (b ++ (GENERATED_BLOCK_END ++ '\n' :: assembleBlocks rest tail)))

theorem isPre_refl (p : List Char) : isPre p p = true := by
  induction p with
  | nil => rfl
  | cons a p ih => simp [isPre, ih]

theorem isPre_length {p s : List Char} (h : isPre p s = true) : p.length ≤ s.length := by
  induction p generalizing s with
  | nil => simp
  | cons a p ih =>
    cases s with
    | nil => simp [isPre] at h
    | cons b s =>
      simp only [isPre] at h
      split at h
      · simp only [List.length_cons]
        exact Nat.succ_le_succ (ih h)
      · cases h

theorem isPre_append_right {p s : List Char} (t : List Char) (h : isPre p s = true) :
    isPre p (s ++ t) = true := by
  induction p generalizing s with
  | nil => rfl
  | cons a p ih =>
    cases s with
    | nil => simp [isPre] at h
    | cons b s =>
      simp only [isPre] at h ⊢
      split at h
      · simpa [*] using ih h
      · cases h

theorem isPre_of_append_le {p x y : List Char} (h : isPre p (x ++ y) = true)
    (hl : p.length ≤ x.length) : isPre p x = true := by
  induction p generalizing x with
  | nil => rfl
  | cons a p ih =>
    cases x with
    | nil => simp at hl
    | cons b x =>
      simp only [List.cons_append, isPre] at h ⊢
      split at h
      · simp only [List.length_cons] at hl
        simpa [*] using ih h (Nat.le_of_succ_le_succ hl)
      · cases h

theorem isPre_split {u v : List Char} (h : isPre u v = true) :
    v = u ++ v.drop u.length := by
  induction u generalizing v with
  | nil => simp
  | cons a u ih =>
    cases v with
    | nil => simp [isPre] at h
    | cons b v =>
      simp only [isPre] at h
      split at h
      · rename_i hab
        simpa [← hab, List.length_cons] using ih h
      · cases h

theorem isPre_append_split {p u v : List Char} (h : isPre p (u ++ v) = true)
    (hl : u.length ≤ p.length) :
    isPre u p = true ∧ isPre (p.drop u.length) v = true := by
  induction u generalizing p with
  | nil => exact ⟨rfl, h⟩
  | cons b u ih =>
    cases p with
    | nil => simp at hl
    | cons a p =>
      simp only [List.cons_append, isPre] at h ⊢
      split at h
      · rename_i hab
        simp only [List.length_cons] at hl ⊢
        have := ih h (Nat.le_of_succ_le_succ hl)
        simpa [hab, List.drop_succ_cons] using this
      · cases h

theorem findIdx_sound {p s : List Char} {i : Nat} (h : findIdx p s = some i) :
    isPre p (s.drop i) = true := by
  induction s generalizing i with
  | nil =>
    simp only [findIdx] at h
    split at h
    · cases h
      simpa using ‹isPre p [] = true›
    · cases h
  | cons c rest ih =>
    simp only [findIdx] at h
    split at h
    · cases h
      simpa using ‹isPre p (c :: rest) = true›
    · rw [Option.map_eq_some'] at h
      obtain ⟨j, hj, hji⟩ := h
      subst hji
      simpa [List.drop_succ_cons] using ih hj

theorem occursIn_of_isPre_drop {p s : List Char} {i : Nat}
    (h : isPre p (s.drop i) = true) : occursIn p s = true := by
  induction s generalizing i with
  | nil =>
    simp only [List.drop_nil] at h
    simp [occursIn, findIdx, h]
  | cons c rest ih =>
    cases i with
    | zero =>
      simp only [List.drop_zero] at h
      simp [occursIn, findIdx, h]
    | succ i =>
      simp only [List.drop_succ_cons] at h
      have := ih h
      simp only [occursIn, findIdx]
      split
      · rfl
      · simpa [Option.isSome_map] using this

theorem occursIn_exists {p s : List Char} (h : occursIn p s = true) :
    ∃ i, isPre p (s.drop i) = true := by
  simp only [occursIn, Option.isSome_iff_exists] at h
  obtain ⟨i, hi⟩ := h
  exact ⟨i, findIdx_sound hi⟩

theorem isPre_drop_of_not_occurs {p s : List Char} (h : occursIn p s = false) (i : Nat) :
    isPre p (s.drop i) = false := by
  cases hb : isPre p (s.drop i) with
  | false => rfl
  | true => rw [occursIn_of_isPre_drop hb] at h; cases h

theorem findIdx_at {p A rest : List Char} (hp : isPre p rest = true)
    (hEarly : ∀ i, i < A.length → isPre p ((A ++ rest).drop i) = false) :
    findIdx p (A ++ rest) = some A.length := by
  induction A with
  | nil =>
    cases rest with
    | nil =>
      simp only [List.nil_append, findIdx]
      rw [if_pos hp]
      rfl
    | cons c r =>
      simp only [List.nil_append, findIdx]
      rw [if_pos hp]
      rfl
  | cons a A ih =>
    have h0 : isPre p (a :: (A ++ rest)) = false := by
      simpa using hEarly 0 (by simp)
    simp only [List.cons_append, findIdx, h0]
    rw [if_neg (by simp [h0])]
    have ihH : ∀ i, i < A.length → isPre p ((A ++ rest).drop i) = false := by
      intro i hi
      have := hEarly (i + 1) (by simpa using Nat.succ_lt_succ hi)
      simpa [List.drop_succ_cons] using this
    simp only [List.append_eq]
    rw [ih ihH]
    simp

theorem lastMem {l : List Char} {c : Char} (h : l.getLast? = some c) : c ∈ l := by
  induction l with
  | nil => cases h
  | cons a t ih =>
    cases t with
    | nil =>
      simp only [List.getLast?_singleton, Option.some.injEq] at h
      simp [h]
    | cons b t2 =>
      rw [List.getLast?_cons_cons] at h
      exact List.mem_cons_of_mem a (ih h)

theorem lastDrop {l : List Char} {i : Nat} (h : i < l.length) :
    (l.drop i).getLast? = l.getLast? := by
  induction l generalizing i with
  | nil => simp at h
  | cons a t ih =>
    cases i with
    | zero => rfl
    | succ i =>
      simp only [List.length_cons] at h
      have hi : i < t.length := Nat.lt_of_succ_lt_succ h
      have ht : t ≠ [] := by
        intro he
        rw [he] at hi
        simp at hi
      rw [List.drop_succ_cons, ih hi]
      cases t with
      | nil => exact absurd rfl ht
      | cons b t2 => rw [List.getLast?_cons_cons]

theorem noEarly {p A : List Char} (rest : List Char) (hnl : '\n' ∉ p)
    (hA : occursIn p A = false) (hend : A.getLast? = some '\n') :
    ∀ i, i < A.length → isPre p ((A ++ rest).drop i) = false := by
  intro i hi
  cases hb : isPre p ((A ++ rest).drop i) with
  | false => rfl
  | true =>
    exfalso
    rw [List.drop_append_of_le_length (Nat.le_of_lt hi)] at hb
    by_cases hlen : p.length ≤ (A.drop i).length
    · have h1 : isPre p (A.drop i) = true := isPre_of_append_le hb hlen
      have := occursIn_of_isPre_drop h1
      rw [this] at hA
      cases hA
    · push_neg at hlen
      have h2 := isPre_append_split hb (Nat.le_of_lt hlen)
      have hsplit := isPre_split h2.1
      have hmem : '\n' ∈ A.drop i := lastMem (by rw [lastDrop hi]; exact hend)
      have : '\n' ∈ p := by
        rw [hsplit]
        exact List.mem_append_left _ hmem
      exact hnl this

theorem nlSplitFree {p x y : List Char} (hnl : '\n' ∉ p)
    (hx : occursIn p x = false) (hy : occursIn p y = false) :
    occursIn p (x ++ '\n' :: y) = false := by
  cases hb : occursIn p (x ++ '\n' :: y) with
  | false => rfl
  | true =>
    exfalso
    obtain ⟨i, hi⟩ := occursIn_exists hb
    by_cases hix : i ≤ x.length
    · rw [List.drop_append_of_le_length hix] at hi
      by_cases hlen : p.length ≤ (x.drop i).length
      · have h1 : isPre p (x.drop i) = true := isPre_of_append_le hi hlen
        rw [occursIn_of_isPre_drop h1] at hx
        cases hx
      · push_neg at hlen
        have h2 := isPre_append_split hi (Nat.le_of_lt hlen)
        have hq := h2.2
        cases hqd : p.drop (x.drop i).length with
        | nil =>
          have hl0 := congrArg List.length hqd
          simp only [List.length_drop, List.length_nil] at hl0
          simp only [List.length_drop] at hlen
          omega
        | cons d q2 =>
          rw [hqd] at hq
          simp only [isPre] at hq
          split at hq
          · rename_i hd
            have hdmem : d ∈ p.drop (x.drop i).length := by rw [hqd]; simp
            have hdp := List.mem_of_mem_drop hdmem
            exact hnl (hd ▸ hdp)
          · cases hq
    · push_neg at hix
      obtain ⟨k, hk⟩ : ∃ k, i = x.length + (1 + k) := ⟨i - x.length - 1, by omega⟩
      rw [hk, ← List.drop_drop, List.drop_left,
        show 1 + k = k + 1 from Nat.add_comm 1 k, List.drop_succ_cons] at hi
      rw [occursIn_of_isPre_drop hi] at hy
      cases hy

theorem occursIn_nil_pat (s : List Char) : occursIn [] s = true := by
  cases s <;> simp [occursIn, findIdx, isPre]

theorem occursIn_append_left {p x : List Char} (y : List Char) (h : occursIn p x = true) :
    occursIn p (x ++ y) = true := by
  obtain ⟨i, hi⟩ := occursIn_exists h
  rcases le_or_lt i x.length with hle | hgt
  · have hp : isPre p ((x ++ y).drop i) = true := by
      rw [List.drop_append_of_le_length hle]
      exact isPre_append_right y hi
    exact occursIn_of_isPre_drop hp
  · have hnil : x.drop i = [] := List.drop_eq_nil_of_le (Nat.le_of_lt hgt)
    rw [hnil] at hi
    have hpnil : p = [] := by
      cases p with
      | nil => rfl
      | cons a q => simp [isPre] at hi
    rw [hpnil]
    exact occursIn_nil_pat _

theorem occursIn_append_right {p y : List Char} (x : List Char) (h : occursIn p y = true) :
    occursIn p (x ++ y) = true := by
  obtain ⟨i, hi⟩ := occursIn_exists h
  have hp : isPre p ((x ++ y).drop (x.length + i)) = true := by
    rw [← List.drop_drop, List.drop_left]
    exact hi
  exact occursIn_of_isPre_drop hp

theorem noCR_normalizeNewlines (s : List Char) : '\r' ∉ normalizeNewlines s := by
  induction s using normalizeNewlines.induct with
  | case1 => simp [normalizeNewlines]
  | case2 => simp [normalizeNewlines]
  | case3 c hc =>
    simp [normalizeNewlines, if_neg hc]
    intro he
    exact hc he.symm
  | case4 rest ih =>
    simp only [normalizeNewlines, if_pos rfl, if_true, eq_self_iff_true, List.mem_cons, not_or]
    exact ⟨by decide, ih⟩
  | case5 d rest hd ih =>
    simp only [normalizeNewlines, if_pos rfl, if_true, eq_self_iff_true, if_neg hd,
      List.mem_cons, not_or]
    exact ⟨by decide, ih⟩
  | case6 c d rest hc ih =>
    simp only [normalizeNewlines, if_neg hc, List.mem_cons, not_or]
    exact ⟨fun he => hc he.symm, ih⟩

theorem normalizeNewlines_eq_self {s : List Char} (h : '\r' ∉ s) :
    normalizeNewlines s = s := by
  induction s using normalizeNewlines.induct with
  | case1 => rfl
  | case2 => simp at h
  | case3 c hc => simp [normalizeNewlines, if_neg hc]
  | case4 rest ih => simp at h
  | case5 d rest hd ih => simp at h
  | case6 c d rest hc ih =>
    simp only [normalizeNewlines, if_neg hc]
    have hdr : '\r' ∉ d :: rest := fun hm => h (List.mem_cons_of_mem c hm)
    rw [ih hdr]

theorem dropWhile_all_append {p : Char → Bool} {a : List Char} (b : List Char)
    (h : ∀ c ∈ a, p c = true) : (a ++ b).dropWhile p = b.dropWhile p := by
  induction a with
  | nil => rfl
  | cons x a ih =>
    have hx : p x = true := h x (by simp)
    simp only [List.cons_append, List.dropWhile_cons, hx, if_true]
    exact ih (fun c hc => h c (List.mem_cons_of_mem x hc))

theorem dropWhile_dropWhile (p : Char → Bool) (l : List Char) :
    (l.dropWhile p).dropWhile p = l.dropWhile p := by
  induction l with
  | nil => rfl
  | cons x l ih =>
    by_cases hx : p x = true
    · simp only [List.dropWhile_cons, hx, if_true]
      exact ih
    · have hx2 : p x = false := by
        cases hb : p x
        · rfl
        · exact absurd hb hx
      simp [List.dropWhile_cons, hx2]

theorem trimEnd_split (s : List Char) :
    ∃ w, s = trimEnd s ++ w ∧ ∀ c ∈ w, isJsWhitespace c = true := by
  refine ⟨(s.reverse.takeWhile isJsWhitespace).reverse, ?_, ?_⟩
  · conv_lhs => rw [← s.reverse_reverse, ← List.takeWhile_append_dropWhile isJsWhitespace s.reverse]
    rw [List.reverse_append]
    rfl
  · intro c hc
    rw [List.mem_reverse] at hc
    exact List.mem_takeWhile_imp hc

theorem trimEnd_idem (s : List Char) : trimEnd (trimEnd s) = trimEnd s := by
  unfold trimEnd
  rw [List.reverse_reverse, dropWhile_dropWhile]

theorem trimEnd_append_ws {w : List Char} (s : List Char)
    (h : ∀ c ∈ w, isJsWhitespace c = true) : trimEnd (s ++ w) = trimEnd s := by
  unfold trimEnd
  rw [List.reverse_append, dropWhile_all_append]
  intro c hc
  rw [List.mem_reverse] at hc
  exact h c hc

theorem mem_trimEnd {c : Char} {s : List Char} (h : c ∈ trimEnd s) : c ∈ s := by
  obtain ⟨w, hw, -⟩ := trimEnd_split s
  rw [hw]
  exact List.mem_append_left w h

theorem occursIn_trimEnd_free {p s : List Char} (h : occursIn p s = false) :
    occursIn p (trimEnd s) = false := by
  cases hb : occursIn p (trimEnd s) with
  | false => rfl
  | true =>
    obtain ⟨w, hw, -⟩ := trimEnd_split s
    rw [hw, occursIn_append_left w hb] at h
    cases h

theorem splitOnNl_ne_nil (s : List Char) : splitOnNl s ≠ [] := by
  cases s with
  | nil => simp [splitOnNl]
  | cons c rest =>
    by_cases hc : c = '\n'
    · simp [splitOnNl, hc]
    · simp only [splitOnNl, if_neg hc]
      cases h : splitOnNl rest <;> simp

theorem splitOnNl_append_nl (a b : List Char) :
    splitOnNl (a ++ '\n' :: b) = splitOnNl a ++ splitOnNl b := by
  induction a with
  | nil => simp [splitOnNl]
  | cons c a ih =>
    by_cases hc : c = '\n'
    · subst hc
      show [] :: splitOnNl (a ++ '\n' :: b) = ([] :: splitOnNl a) ++ splitOnNl b
      rw [ih]
      rfl
    · simp only [List.cons_append, splitOnNl, if_neg hc, List.append_eq]
      rw [ih]
      cases h : splitOnNl a with
      | nil => exact absurd h (splitOnNl_ne_nil a)
      | cons l ls => simp [h]

theorem splitOnNl_no_nl {s l : List Char} (h : l ∈ splitOnNl s) : '\n' ∉ l := by
  induction s generalizing l with
  | nil =>
    simp [splitOnNl] at h
    simp [h]
  | cons c rest ih =>
    by_cases hc : c = '\n'
    · simp only [splitOnNl, if_pos hc, List.mem_cons] at h
      rcases h with h | h
      · simp [h]
      · exact ih h
    · simp only [splitOnNl, if_neg hc] at h
      cases hs : splitOnNl rest with
      | nil => exact absurd hs (splitOnNl_ne_nil rest)
      | cons l0 ls =>
        rw [hs, List.mem_cons] at h
        rcases h with h | h
        · subst h
          intro hm
          rcases List.mem_cons.1 hm with h1 | h1
          · exact hc h1.symm
          · exact ih (by rw [hs]; exact List.mem_cons_self l0 ls) h1
        · exact ih (by rw [hs]; exact List.mem_cons_of_mem l0 h)

theorem splitOnNl_of_no_nl {s : List Char} (h : '\n' ∉ s) : splitOnNl s = [s] := by
  induction s with
  | nil => rfl
  | cons c rest ih =>
    have hc : c ≠ '\n' := fun he => h (by simp [he])
    have hrest : '\n' ∉ rest := fun hm => h (List.mem_cons_of_mem c hm)
    simp only [splitOnNl, if_neg hc, ih hrest]

theorem joinNl_cons {L : List (List Char)} (x : List Char) (h : L ≠ []) :
    joinNl (x :: L) = x ++ '\n' :: joinNl L := by
  cases L with
  | nil => exact absurd rfl h
  | cons y L2 => rfl

theorem splitOnNl_joinNl {L : List (List Char)} (hnl : ∀ l ∈ L, '\n' ∉ l) (h : L ≠ []) :
    splitOnNl (joinNl L) = L := by
  induction L with
  | nil => exact absurd rfl h
  | cons x L ih =>
    cases L with
    | nil =>
      show splitOnNl (joinNl [x]) = [x]
      exact splitOnNl_of_no_nl (hnl x (by simp))
    | cons y L2 =>
      rw [joinNl_cons x (by simp), splitOnNl_append_nl,
        splitOnNl_of_no_nl (hnl x (by simp)),
        ih (fun l hl => hnl l (List.mem_cons_of_mem x hl)) (by simp)]
      rfl

theorem joinNl_append_single {L : List (List Char)} (x : List Char) (h : L ≠ []) :
    joinNl (L ++ [x]) = joinNl L ++ '\n' :: x := by
  induction L with
  | nil => exact absurd rfl h
  | cons y L ih =>
    cases L with
    | nil => rfl
    | cons z L2 =>
      rw [List.cons_append, joinNl_cons y (by simp), ih (by simp),
        joinNl_cons y (by simp), List.append_assoc]
      rfl

theorem splitOnNl_head {s l : List Char} {ls : List (List Char)}
    (h : splitOnNl s = l :: ls) : ∃ v, s = l ++ v := by
  induction s generalizing l ls with
  | nil =>
    simp only [splitOnNl, List.cons.injEq] at h
    exact ⟨[], by simp [← h.1]⟩
  | cons c rest ih =>
    by_cases hc : c = '\n'
    · simp only [splitOnNl, if_pos hc, List.cons.injEq] at h
      exact ⟨c :: rest, by simp [← h.1]⟩
    · simp only [splitOnNl, if_neg hc] at h
      cases hs : splitOnNl rest with
      | nil => exact absurd hs (splitOnNl_ne_nil rest)
      | cons l0 ls0 =>
        rw [hs, List.cons.injEq] at h
        obtain ⟨v, hv⟩ := ih hs
        exact ⟨v, by rw [← h.1, List.cons_append, ← hv]⟩

theorem splitMemDecomp {s l : List Char} (h : l ∈ splitOnNl s) :
    ∃ u v, s = u ++ (l ++ v) := by
  induction s generalizing l with
  | nil =>
    simp only [splitOnNl, List.mem_singleton] at h
    exact ⟨[], [], by simp [h]⟩
  | cons c rest ih =>
    by_cases hc : c = '\n'
    · simp only [splitOnNl, if_pos hc, List.mem_cons] at h
      rcases h with h | h
      · exact ⟨[], c :: rest, by simp [h]⟩
      · obtain ⟨u, v, huv⟩ := ih h
        exact ⟨c :: u, v, by rw [huv]; rfl⟩
    · simp only [splitOnNl, if_neg hc] at h
      cases hs : splitOnNl rest with
      | nil => exact absurd hs (splitOnNl_ne_nil rest)
      | cons l0 ls0 =>
        rw [hs, List.mem_cons] at h
        rcases h with h | h
        · obtain ⟨v, hv⟩ := splitOnNl_head hs
          exact ⟨[], v, by rw [h, List.nil_append, List.cons_append, ← hv]⟩
        · obtain ⟨u, v, huv⟩ := ih (by rw [hs]; exact List.mem_cons_of_mem l0 h)
          exact ⟨c :: u, v, by rw [huv]; rfl⟩

theorem occursIn_of_mem_split {s l p : List Char} (hmem : l ∈ splitOnNl s)
    (h : occursIn p l = true) : occursIn p s = true := by
  obtain ⟨u, v, huv⟩ := splitMemDecomp hmem
  rw [huv]
  exact occursIn_append_right u (occursIn_append_left v h)

theorem mem_splitOnNl_chars {c : Char} {s l : List Char} (hc : c ∈ l)
    (hmem : l ∈ splitOnNl s) : c ∈ s := by
  obtain ⟨u, v, huv⟩ := splitMemDecomp hmem
  rw [huv]
  exact List.mem_append_right u (List.mem_append_left v hc)

theorem joinNl_chars {c : Char} {L : List (List Char)} (h : c ∈ joinNl L) :
    c = '\n' ∨ ∃ l ∈ L, c ∈ l := by
  induction L with
  | nil => simp [joinNl] at h
  | cons x L ih =>
    cases L with
    | nil =>
      right
      exact ⟨x, by simp, h⟩
    | cons y L2 =>
      rw [joinNl_cons x (by simp)] at h
      rcases List.mem_append.1 h with h1 | h1
      · right
        exact ⟨x, by simp, h1⟩
      · rcases List.mem_cons.1 h1 with h2 | h2
        · left
          exact h2
        · rcases ih h2 with h3 | ⟨l, hl, hcl⟩
          · left
            exact h3
          · right
            exact ⟨l, List.mem_cons_of_mem x hl, hcl⟩

theorem findIdx_nil_of_ne {p : List Char} (h : p ≠ []) : findIdx p [] = none := by
  cases p with
  | nil => exact absurd rfl h
  | cons a q => simp [findIdx, isPre]

theorem startNeNil : GENERATED_BLOCK_START ≠ [] := by decide

theorem removeBlocksFuel_nil (f : Nat) : removeBlocksFuel f [] = [] := by
  cases f with
  | zero => rfl
  | succ f2 => simp [removeBlocksFuel, findIdx_nil_of_ne startNeNil]

theorem findIdx_le_length {p s : List Char} {i : Nat} (h : findIdx p s = some i) :
    i ≤ s.length := by
  induction s generalizing i with
  | nil =>
    simp only [findIdx] at h
    split at h
    · cases h; simp
    · cases h
  | cons c rest ih =>
    simp only [findIdx] at h
    split at h
    · cases h; simp
    · rw [Option.map_eq_some'] at h
      obtain ⟨j, hj, hji⟩ := h
      subst hji
      simp only [List.length_cons]
      exact Nat.succ_le_succ (ih hj)

theorem findIdx_bound {p s : List Char} {i : Nat} (h : findIdx p s = some i) :
    i + p.length ≤ s.length := by
  have h1 := isPre_length (findIdx_sound h)
  have h3 := findIdx_le_length h
  rw [List.length_drop] at h1
  omega

theorem removeBlocksFuel_congr :
    ∀ (n : Nat) (s : List Char) (f g : Nat), s.length ≤ n → s.length ≤ f → s.length ≤ g →
      removeBlocksFuel f s = removeBlocksFuel g s := by
  intro n
  induction n with
  | zero =>
    intro s f g hn _ _
    have hs : s = [] := List.eq_nil_of_length_eq_zero (Nat.le_zero.mp hn)
    subst hs
    rw [removeBlocksFuel_nil, removeBlocksFuel_nil]
  | succ n ih =>
    intro s f g hn hf hg
    cases f with
    | zero =>
      have hs : s = [] := List.eq_nil_of_length_eq_zero (Nat.le_zero.mp hf)
      subst hs
      rw [removeBlocksFuel_nil, removeBlocksFuel_nil]
    | succ f2 =>
      cases g with
      | zero =>
        have hs : s = [] := List.eq_nil_of_length_eq_zero (Nat.le_zero.mp hg)
        subst hs
        rw [removeBlocksFuel_nil, removeBlocksFuel_nil]
      | succ g2 =>
        cases h1 : findIdx GENERATED_BLOCK_START s with
        | none => simp only [removeBlocksFuel, h1]
        | some i =>
          cases h2 : findIdx GENERATED_BLOCK_END (s.drop (i + GENERATED_BLOCK_START.length)) with
          | none => simp only [removeBlocksFuel, h1, h2]
          | some j =>
            simp only [removeBlocksFuel, h1, h2]
            congr 1
            have hb1 := findIdx_bound h1
            have hb2 := findIdx_bound h2
            rw [List.length_drop] at hb2
            have hS : 0 < GENERATED_BLOCK_START.length := by decide
            set after := (s.drop (i + GENERATED_BLOCK_START.length)).drop
              (j + GENERATED_BLOCK_END.length) with hafter
            have hal : after.length = s.length - (i + GENERATED_BLOCK_START.length) -
                (j + GENERATED_BLOCK_END.length) := by
              rw [hafter, List.length_drop, List.length_drop]
            have hXle : (if after.head? = some '\n' then after.tail else after).length ≤
                after.length := by
              split
              · rw [List.length_tail]
                omega
              · exact Nat.le_refl _
            apply ih
            · omega
            · omega
            · omega

theorem removeBlocksFuel_eq {s : List Char} {f : Nat} (hf : s.length ≤ f) :
    removeBlocksFuel f s = removeBlocks s :=
  removeBlocksFuel_congr s.length s f s.length (Nat.le_refl _) hf (Nat.le_refl _)

theorem removeBlocks_no_start {s : List Char} (h : occursIn GENERATED_BLOCK_START s = false) :
    removeBlocks s = s := by
  have hnone : findIdx GENERATED_BLOCK_START s = none := by
    cases hf : findIdx GENERATED_BLOCK_START s with
    | none => rfl
    | some i => rw [occursIn, hf] at h; cases h
  show removeBlocksFuel s.length s = s
  cases hl : s.length with
  | zero => rfl
  | succ n => simp [removeBlocksFuel, hnone]

theorem removeBlocksFuel_chars {c : Char} :
    ∀ {f : Nat} {s : List Char}, c ∈ removeBlocksFuel f s → c ∈ s := by
  intro f
  induction f with
  | zero => intro s h; exact h
  | succ f2 ih =>
    intro s h
    cases h1 : findIdx GENERATED_BLOCK_START s with
    | none =>
      simp only [removeBlocksFuel, h1] at h
      exact h
    | some i =>
      cases h2 : findIdx GENERATED_BLOCK_END (s.drop (i + GENERATED_BLOCK_START.length)) with
      | none =>
        simp only [removeBlocksFuel, h1, h2] at h
        exact h
      | some j =>
        simp only [removeBlocksFuel, h1, h2] at h
        rcases List.mem_append.1 h with h3 | h3
        · exact List.mem_of_mem_take h3
        · have h4 := ih h3
          have h5 : c ∈ (s.drop (i + GENERATED_BLOCK_START.length)).drop
              (j + GENERATED_BLOCK_END.length) := by
            revert h4
            split
            · intro h4
              rw [← List.drop_one] at h4
              exact List.mem_of_mem_drop h4
            · intro h4
              exact h4
          exact List.mem_of_mem_drop (List.mem_of_mem_drop h5)

theorem strip_noCR (c : List Char) : '\r' ∉ stripGeneratedBlock c := by
  intro h
  have h1 := mem_trimEnd h
  have h2 : '\r' ∈ normalizeNewlines c := removeBlocksFuel_chars h1
  exact noCR_normalizeNewlines c h2

theorem strip_trimEnd_fixed (c : List Char) :
    trimEnd (stripGeneratedBlock c) = stripGeneratedBlock c :=
  trimEnd_idem _

theorem strip_normalize_fixed (c : List Char) :
    normalizeNewlines (stripGeneratedBlock c) = stripGeneratedBlock c :=
  normalizeNewlines_eq_self (strip_noCR c)

theorem removeBlocks_step (A B C : List Char)
    (hA : occursIn GENERATED_BLOCK_START A = false)
    (hend : A = [] ∨ A.getLast? = some '\n')
    (hB : occursIn GENERATED_BLOCK_END B = false)
    (hBend : B.getLast? = some '\n') :
    removeBlocks (A ++ (GENERATED_BLOCK_START ++ (B ++ (GENERATED_BLOCK_END ++ '\n' :: C)))) =
      A ++ removeBlocks C := by
  set rest0 := B ++ (GENERATED_BLOCK_END ++ '\n' :: C) with hrest0
  set s := A ++ (GENERATED_BLOCK_START ++ rest0) with hs
  have h1 : findIdx GENERATED_BLOCK_START s = some A.length := by
    apply findIdx_at
    · exact isPre_append_right _ (isPre_refl GENERATED_BLOCK_START)
    · rcases hend with hnil | hlast
      · intro i hi
        rw [hnil] at hi
        simp at hi
      · exact noEarly _ (by decide) hA hlast
  have hd1 : s.drop (A.length + GENERATED_BLOCK_START.length) = rest0 := by
    rw [hs, ← List.drop_drop, List.drop_left, List.drop_left]
  have h2 : findIdx GENERATED_BLOCK_END rest0 = some B.length := by
    apply findIdx_at
    · exact isPre_append_right _ (isPre_refl GENERATED_BLOCK_END)
    · exact noEarly _ (by decide) hB hBend
  have h2s : findIdx GENERATED_BLOCK_END (s.drop (A.length + GENERATED_BLOCK_START.length)) =
      some B.length := by rw [hd1]; exact h2
  have hd2 : rest0.drop (B.length + GENERATED_BLOCK_END.length) = '\n' :: C := by
    rw [hrest0, ← List.drop_drop, List.drop_left, List.drop_left]
  have hslen : s.length =
      A.length + (GENERATED_BLOCK_START.length + (B.length +
        (GENERATED_BLOCK_END.length + (1 + C.length)))) := by
    rw [hs, hrest0]
    simp [List.length_append]
    omega
  have hSpos : 0 < GENERATED_BLOCK_START.length := by decide
  show removeBlocksFuel s.length s = A ++ removeBlocks C
  cases hsl : s.length with
  | zero => omega
  | succ n =>
    simp only [removeBlocksFuel, h1, h2s]
    rw [hd1, hd2]
    rw [List.head?_cons, if_pos rfl, List.tail_cons]
    have htake : s.take A.length = A := by
      rw [hs]
      exact List.take_left A _
    rw [htake]
    congr 1
    exact removeBlocksFuel_eq (by omega)

theorem occursIn_nil {p : List Char} (hp : p ≠ []) : occursIn p [] = false := by
  cases p with
  | nil => exact absurd rfl hp
  | cons a q => simp [occursIn, findIdx, isPre]

theorem occursIn_header_free {H name p : List Char}
    (hcond : ∀ j, j < H.length → isPre (H.drop j) p = false ∧ isPre p (H.drop j) = false)
    (hname : occursIn p name = false) : occursIn p (H ++ name) = false := by
  cases hb : occursIn p (H ++ name) with
  | false => rfl
  | true =>
    exfalso
    obtain ⟨i, hi⟩ := occursIn_exists hb
    by_cases hiH : i < H.length
    · rw [List.drop_append_of_le_length (Nat.le_of_lt hiH)] at hi
      by_cases hlen : p.length ≤ (H.drop i).length
      · have h1 : isPre p (H.drop i) = true := isPre_of_append_le hi hlen
        rw [(hcond i hiH).2] at h1
        cases h1
      · push_neg at hlen
        have h2 := isPre_append_split hi (Nat.le_of_lt hlen)
        rw [(hcond i hiH).1] at h2
        exact absurd h2.1 (by simp)
    · push_neg at hiH
      obtain ⟨k, hk⟩ : ∃ k, i = H.length + k := ⟨i - H.length, by omega⟩
      rw [hk, ← List.drop_drop, List.drop_left] at hi
      rw [occursIn_of_isPre_drop hi] at hname
      cases hname

theorem header_free {t : TemplateWithSource} {p : List Char} (useSimple : Bool)
    (hp : p = GENERATED_BLOCK_START ∨ p = GENERATED_BLOCK_END)
    (hname : occursIn p t.meta.name = false) :
    occursIn p (getSectionHeader t useSimple) = false := by
  unfold getSectionHeader
  cases useSimple with
  | true =>
    simp only [if_true]
    apply occursIn_header_free _ hname
    rcases hp with hp | hp <;> subst hp <;> decide
  | false =>
    simp only [if_false, Bool.false_eq_true]
    have hshape : str "### " ++ kindStr t.meta.kind ++ str ": " ++ t.meta.name =
        (str "### " ++ kindStr t.meta.kind ++ str ": ") ++ t.meta.name := by
      simp [List.append_assoc]
    rw [hshape]
    apply occursIn_header_free _ hname
    cases t.meta.kind <;> rcases hp with hp | hp <;> subst hp <;> simp only [kindStr] <;> decide

theorem source_lines_free {src0 p l : List Char} (hfree : occursIn p src0 = false)
    (hcr : '\r' ∉ src0) (hmem : l ∈ splitOnNl (normalizeNewlines src0)) :
    occursIn p l = false := by
  rw [normalizeNewlines_eq_self hcr] at hmem
  cases hb : occursIn p l with
  | false => rfl
  | true =>
    rw [occursIn_of_mem_split hmem hb] at hfree
    cases hfree

theorem dedupeLinesAux_mem {l : List Char} :
    ∀ {ls rules : List (List Char)}, l ∈ (dedupeLinesAux rules ls).1 → l ∈ ls := by
  intro ls
  induction ls with
  | nil => intro rules h; simp [dedupeLinesAux] at h
  | cons l0 rest ih =>
    intro rules h
    simp only [dedupeLinesAux] at h
    split at h
    · split at h
      · exact List.mem_cons_of_mem l0 (ih h)
      · rcases List.mem_cons.1 h with h1 | h1
        · simp [h1]
        · exact List.mem_cons_of_mem l0 (ih h1)
    · rcases List.mem_cons.1 h with h1 | h1
      · simp [h1]
      · exact List.mem_cons_of_mem l0 (ih h1)

theorem trimTrailing_split (lines : List (List Char)) :
    ∃ w, lines = trimTrailingBlankLines lines ++ w ∧ ∀ l ∈ w, l = ([] : List Char) := by
  refine ⟨(lines.reverse.takeWhile (fun l => l.isEmpty)).reverse, ?_, ?_⟩
  · conv_lhs => rw [← lines.reverse_reverse,
      ← List.takeWhile_append_dropWhile (fun l => l.isEmpty) lines.reverse]
    rw [List.reverse_append]
    rfl
  · intro l hl
    rw [List.mem_reverse] at hl
    have := List.mem_takeWhile_imp hl
    exact List.isEmpty_iff.mp this

theorem trimTrailing_mem {lines : List (List Char)} {l : List Char}
    (h : l ∈ trimTrailingBlankLines lines) : l ∈ lines := by
  obtain ⟨w, hw, -⟩ := trimTrailing_split lines
  rw [hw]
  exact List.mem_append_left w h

theorem trimEnd_cons_nonws {c : Char} (x : List Char) (hc : isJsWhitespace c = false) :
    ∃ y, trimEnd (c :: x) = c :: y := by
  unfold trimEnd
  rw [List.reverse_cons, List.dropWhile_append]
  have hone : List.dropWhile isJsWhitespace [c] = [c] := by
    rw [List.dropWhile_cons, hc]
    simp
  split
  · rw [hone]
    exact ⟨[], by simp⟩
  · exact ⟨(x.reverse.dropWhile isJsWhitespace).reverse, by
      rw [List.reverse_append]
      simp⟩

theorem isRuleLine_hash (x : List Char) : isRuleLine ('#' :: x) = false := by
  have hws : isJsWhitespace '#' = false := by decide
  have h1 : jsTrim ('#' :: x) = trimEnd ('#' :: x) := by
    unfold jsTrim
    rw [List.dropWhile_cons, hws]
    simp
  obtain ⟨y, hy⟩ := trimEnd_cons_nonws x hws
  unfold isRuleLine
  rw [h1, hy]
  simp

theorem isRuleLine_header (t : TemplateWithSource) (useSimple : Bool) :
    isRuleLine (getSectionHeader t useSimple) = false := by
  unfold getSectionHeader
  split
  · exact isRuleLine_hash _
  · exact isRuleLine_hash _

theorem isRuleLine_start : isRuleLine GENERATED_BLOCK_START = false := by decide

theorem isRuleLine_endSentinel : isRuleLine GENERATED_BLOCK_END = false := by decide

theorem isRuleLine_nil : isRuleLine ([] : List Char) = false := by decide

theorem dedupeLinesAux_spec :
    ∀ (ls rules : List (List Char)),
      (∀ x ∈ rules, x ∈ (dedupeLinesAux rules ls).2) ∧
      (∀ l ∈ (dedupeLinesAux rules ls).1, isRuleLine l = true →
        normalizeRuleLine l ∈ (dedupeLinesAux rules ls).2 ∧ normalizeRuleLine l ∉ rules) ∧
      List.Pairwise dedupR (dedupeLinesAux rules ls).1 := by
  intro ls
  induction ls with
  | nil =>
    intro rules
    refine ⟨fun x hx => hx, fun l hl => ?_, ?_⟩
    · simp [dedupeLinesAux] at hl
    · simp [dedupeLinesAux]
  | cons l0 rest ih =>
    intro rules
    by_cases hrule : isRuleLine l0 = true
    · by_cases hmem : normalizeRuleLine l0 ∈ rules
      · have heq : dedupeLinesAux rules (l0 :: rest) = dedupeLinesAux rules rest := by
          simp only [dedupeLinesAux, hrule, if_true, if_pos hmem]
        rw [heq]
        exact ih rules
      · have heq : dedupeLinesAux rules (l0 :: rest) =
            (l0 :: (dedupeLinesAux (normalizeRuleLine l0 :: rules) rest).1,
              (dedupeLinesAux (normalizeRuleLine l0 :: rules) rest).2) := by
          simp only [dedupeLinesAux, hrule, if_true, if_neg hmem]
        rw [heq]
        obtain ⟨iha, ihb, ihc⟩ := ih (normalizeRuleLine l0 :: rules)
        refine ⟨?_, ?_, ?_⟩
        · intro x hx
          exact iha x (List.mem_cons_of_mem _ hx)
        · intro l hl hr
          rcases List.mem_cons.1 hl with h1 | h1
          · subst h1
            exact ⟨iha _ (List.mem_cons_self _ _), hmem⟩
          · obtain ⟨hin, hout⟩ := ihb l h1 hr
            exact ⟨hin, fun hx => hout (List.mem_cons_of_mem _ hx)⟩
        · refine List.pairwise_cons.2 ⟨?_, ihc⟩
          intro b hb
          intro _ hbr
          obtain ⟨-, hout⟩ := ihb b hb hbr
          intro hcontra
          exact hout (by rw [← hcontra]; exact List.mem_cons_self _ _)
    · have heq : dedupeLinesAux rules (l0 :: rest) =
          (l0 :: (dedupeLinesAux rules rest).1, (dedupeLinesAux rules rest).2) := by
        simp only [dedupeLinesAux, hrule]
        simp [Bool.not_eq_true] at hrule
        simp [hrule]
      rw [heq]
      obtain ⟨iha, ihb, ihc⟩ := ih rules
      refine ⟨iha, ?_, ?_⟩
      · intro l hl hr
        rcases List.mem_cons.1 hl with h1 | h1
        · subst h1
          exact absurd hr hrule
        · exact ihb l h1 hr
      · refine List.pairwise_cons.2 ⟨?_, ihc⟩
        intro b hb hr
        exact absurd hr hrule

theorem dedupeTemplateSourceLines_spec (source : List Char) (rules : List (List Char)) :
    (∀ x ∈ rules, x ∈ (dedupeTemplateSourceLines source rules).2) ∧
    (∀ l ∈ (dedupeTemplateSourceLines source rules).1, isRuleLine l = true →
      normalizeRuleLine l ∈ (dedupeTemplateSourceLines source rules).2 ∧
      normalizeRuleLine l ∉ rules) ∧
    List.Pairwise dedupR (dedupeTemplateSourceLines source rules).1 := by
  obtain ⟨ha, hb, hc⟩ := dedupeLinesAux_spec (splitOnNl (normalizeNewlines source)) rules
  unfold dedupeTemplateSourceLines
  refine ⟨ha, ?_, ?_⟩
  · intro l hl hr
    exact hb l (trimTrailing_mem hl) hr
  · obtain ⟨w, hw, -⟩ :=
      trimTrailing_split (dedupeLinesAux rules (splitOnNl (normalizeNewlines source))).1
    have hsub : (trimTrailingBlankLines
        (dedupeLinesAux rules (splitOnNl (normalizeNewlines source))).1).Sublist
          (dedupeLinesAux rules (splitOnNl (normalizeNewlines source))).1 := by
      conv_rhs => rw [hw]
      exact List.sublist_append_left _ _
    exact List.Pairwise.sublist hsub hc

theorem buildTemplateSections_spec (sep : Bool) :
    ∀ (T : List TemplateWithSource) (rules : List (List Char)),
      (∀ x ∈ rules, x ∈ (buildTemplateSections sep T rules).2) ∧
      (∀ l ∈ (buildTemplateSections sep T rules).1, isRuleLine l = true →
        normalizeRuleLine l ∈ (buildTemplateSections sep T rules).2 ∧
        normalizeRuleLine l ∉ rules) ∧
      List.Pairwise dedupR (buildTemplateSections sep T rules).1 := by
  intro T
  induction T with
  | nil =>
    intro rules
    exact ⟨fun x hx => hx, by simp [buildTemplateSections], by simp [buildTemplateSections]⟩
  | cons t rest ih =>
    intro rules
    obtain ⟨da, db, dc⟩ := dedupeTemplateSourceLines_spec t.source rules
    obtain ⟨ia, ib, ic⟩ := ih (dedupeTemplateSourceLines t.source rules).2
    have hunfold : buildTemplateSections sep (t :: rest) rules =
        (getSectionHeader t sep :: ((dedupeTemplateSourceLines t.source rules).1 ++ [[]] ++
          (buildTemplateSections sep rest (dedupeTemplateSourceLines t.source rules).2).1),
          (buildTemplateSections sep rest (dedupeTemplateSourceLines t.source rules).2).2) := rfl
    rw [hunfold]
    refine ⟨?_, ?_, ?_⟩
    · intro x hx
      exact ia x (da x hx)
    · intro l hl hr
      rcases List.mem_cons.1 hl with h1 | h1
      · subst h1
        rw [isRuleLine_header] at hr
        cases hr
      · rcases List.mem_append.1 h1 with h2 | h2
        · rcases List.mem_append.1 h2 with h3 | h3
          · obtain ⟨hin, hout⟩ := db l h3 hr
            exact ⟨ia _ hin, hout⟩
          · rw [List.mem_singleton.1 h3] at hr
            rw [isRuleLine_nil] at hr
            cases hr
        · obtain ⟨hin, hout⟩ := ib l h2 hr
          refine ⟨hin, fun hx => hout (da _ hx)⟩
    · refine List.pairwise_cons.2 ⟨?_, ?_⟩
      · intro b _ hhr
        rw [isRuleLine_header] at hhr
        cases hhr
      · rw [List.pairwise_append]
        refine ⟨?_, ic, ?_⟩
        · rw [List.pairwise_append]
          refine ⟨dc, ?_, ?_⟩
          · simp [dedupR, isRuleLine_nil]
          · intro a _ b hb
            rw [List.mem_singleton.1 hb]
            intro _ hbr
            rw [isRuleLine_nil] at hbr
            cases hbr
        · intro a ha b hb
          rcases List.mem_append.1 ha with h3 | h3
          · intro har hbr
            obtain ⟨hin, -⟩ := db a h3 har
            obtain ⟨-, hout⟩ := ib b hb hbr
            intro hcontra
            exact hout (by rw [← hcontra]; exact hin)
          · rw [List.mem_singleton.1 h3]
            intro har
            rw [isRuleLine_nil] at har
            cases har

theorem joinNl_free {p : List Char} (hnl : '\n' ∉ p) (hp : p ≠ []) :
    ∀ {L : List (List Char)}, (∀ l ∈ L, occursIn p l = false) →
      occursIn p (joinNl L) = false := by
  intro L
  induction L with
  | nil => intro _; exact occursIn_nil hp
  | cons x L ih =>
    intro h
    cases L with
    | nil => exact h x (by simp)
    | cons y L2 =>
      rw [joinNl_cons x (by simp)]
      exact nlSplitFree hnl (h x (by simp))
        (ih (fun l hl => h l (List.mem_cons_of_mem x hl)))

theorem buildTemplateSections_free {p : List Char} (sep : Bool)
    (hsent : p = GENERATED_BLOCK_START ∨ p = GENERATED_BLOCK_END) :
    ∀ (T : List TemplateWithSource) (rules : List (List Char)),
      (∀ t ∈ T, occursIn p t.meta.name = false ∧ occursIn p t.source = false ∧
        '\r' ∉ t.source) →
      ∀ l ∈ (buildTemplateSections sep T rules).1, occursIn p l = false := by
  intro T
  induction T with
  | nil =>
    intro rules _ l hl
    simp [buildTemplateSections] at hl
  | cons t rest ih =>
    intro rules hT l hl
    obtain ⟨hname, hsrc, hcr⟩ := hT t (by simp)
    have hp : p ≠ [] := by
      rcases hsent with h | h <;> subst h <;> decide
    rcases List.mem_cons.1 hl with h1 | h1
    · subst h1
      exact header_free sep hsent hname
    · rcases List.mem_append.1 h1 with h2 | h2
      · rcases List.mem_append.1 h2 with h3 | h3
        · have h4 := dedupeLinesAux_mem (trimTrailing_mem h3)
          exact source_lines_free hsrc hcr h4
        · rw [List.mem_singleton.1 h3]
          exact occursIn_nil hp
      · exact ih _ (fun u hu => hT u (List.mem_cons_of_mem t hu)) l h2

theorem buildTemplateSections_noCR (sep : Bool) :
    ∀ (T : List TemplateWithSource) (rules : List (List Char)),
      (∀ t ∈ T, '\r' ∉ t.meta.name) →
      ∀ l ∈ (buildTemplateSections sep T rules).1, '\r' ∉ l := by
  intro T
  induction T with
  | nil =>
    intro rules _ l hl
    simp [buildTemplateSections] at hl
  | cons t rest ih =>
    intro rules hT l hl
    rcases List.mem_cons.1 hl with h1 | h1
    · subst h1
      unfold getSectionHeader
      split
      · intro hm
        rcases List.mem_append.1 hm with hm1 | hm1
        · revert hm1; decide
        · exact hT t (by simp) hm1
      · intro hm
        rcases List.mem_append.1 hm with hm1 | hm1
        · rcases List.mem_append.1 hm1 with hm2 | hm2
          · rcases List.mem_append.1 hm2 with hm3 | hm3
            · revert hm3; decide
            · revert hm2 hm3
              cases t.meta.kind <;> decide
          · revert hm1 hm2; intro _; decide
        · exact hT t (by simp) hm1
    · rcases List.mem_append.1 h1 with h2 | h2
      · rcases List.mem_append.1 h2 with h3 | h3
        · have h4 := dedupeLinesAux_mem (trimTrailing_mem h3)
          intro hm
          exact noCR_normalizeNewlines t.source (mem_splitOnNl_chars hm h4)
        · rw [List.mem_singleton.1 h3]
          simp
      · exact ih _ (fun u hu => hT u (List.mem_cons_of_mem t hu)) l h2

theorem buildTemplateSections_no_nl (sep : Bool) :
    ∀ (T : List TemplateWithSource) (rules : List (List Char)),
      (∀ t ∈ T, '\n' ∉ t.meta.name) →
      ∀ l ∈ (buildTemplateSections sep T rules).1, '\n' ∉ l := by
  intro T
  induction T with
  | nil =>
    intro rules _ l hl
    simp [buildTemplateSections] at hl
  | cons t rest ih =>
    intro rules hT l hl
    rcases List.mem_cons.1 hl with h1 | h1
    · subst h1
      unfold getSectionHeader
      split
      · intro hm
        rcases List.mem_append.1 hm with hm1 | hm1
        · revert hm1; decide
        · exact hT t (by simp) hm1
      · intro hm
        rcases List.mem_append.1 hm with hm1 | hm1
        · rcases List.mem_append.1 hm1 with hm2 | hm2
          · rcases List.mem_append.1 hm2 with hm3 | hm3
            · revert hm3; decide
            · revert hm2 hm3
              cases t.meta.kind <;> decide
          · revert hm1 hm2; intro _; decide
        · exact hT t (by simp) hm1
    · rcases List.mem_append.1 h1 with h2 | h2
      · rcases List.mem_append.1 h2 with h3 | h3
        · exact splitOnNl_no_nl (dedupeLinesAux_mem (trimTrailing_mem h3))
        · rw [List.mem_singleton.1 h3]
          simp
      · exact ih _ (fun u hu => hT u (List.mem_cons_of_mem t hu)) l h2

theorem buildGeneratedBlock_shape (T : List TemplateWithSource) (rules : List (List Char))
    (sep : Bool) :
    ∃ body : List (List Char),
      buildGeneratedBlock T rules ⟨true, sep⟩ =
        joinNl (GENERATED_BLOCK_START :: (body ++ [GENERATED_BLOCK_END])) ∧
      body.Sublist (buildTemplateSections sep T rules).1 := by
  have hunfold : buildGeneratedBlock T rules ⟨true, sep⟩ =
      (let lines0 := GENERATED_BLOCK_START :: (buildTemplateSections sep T rules).1
       let lines1 := if lines0.getLast? = some [] then lines0.dropLast else lines0
       let lines2 := lines1 ++ [GENERATED_BLOCK_END]
       if lines2 = [] then [] else joinNl lines2) := rfl
  rw [hunfold]
  by_cases hlast : (GENERATED_BLOCK_START :: (buildTemplateSections sep T rules).1).getLast? =
      some ([] : List Char)
  · simp only [hlast, if_pos rfl, if_true]
    have hne : (buildTemplateSections sep T rules).1 ≠ [] := by
      intro he
      rw [he] at hlast
      simp only [List.getLast?_singleton, Option.some.injEq] at hlast
      exact startNeNil hlast
    cases hsecs : (buildTemplateSections sep T rules).1 with
    | nil => exact absurd hsecs hne
    | cons x xs =>
      refine ⟨(x :: xs).dropLast, ?_, List.dropLast_sublist (x :: xs)⟩
      have hdl : (GENERATED_BLOCK_START :: x :: xs).dropLast =
          GENERATED_BLOCK_START :: (x :: xs).dropLast := by
        simp [List.dropLast]
      rw [hdl, List.cons_append]
      rw [if_neg (by simp)]
  · simp only [if_neg hlast]
    refine ⟨(buildTemplateSections sep T rules).1, ?_, List.Sublist.refl _⟩
    rw [List.cons_append]
    rw [if_neg (by simp)]

theorem joinNl_sentinel_shape (body : List (List Char)) :
    ∃ B : List Char,
      joinNl (GENERATED_BLOCK_START :: (body ++ [GENERATED_BLOCK_END])) =
        GENERATED_BLOCK_START ++ (B ++ GENERATED_BLOCK_END) ∧
      B.getLast? = some '\n' ∧
      ∀ p : List Char, '\n' ∉ p → p ≠ [] → (∀ l ∈ body, occursIn p l = false) →
        occursIn p B = false := by
  cases body with
  | nil =>
    refine ⟨['\n'], ?_, rfl, ?_⟩
    · rw [joinNl_cons _ (by simp)]
      rfl
    · intro p hnl hp _
      have h := nlSplitFree (x := []) (y := []) hnl (occursIn_nil hp) (occursIn_nil hp)
      simpa using h
  | cons b rest =>
    refine ⟨'\n' :: (joinNl (b :: rest) ++ ['\n']), ?_, ?_, ?_⟩
    · rw [joinNl_cons _ (by simp), joinNl_append_single _ (by simp)]
      simp [List.append_assoc]
    · rw [show '\n' :: (joinNl (b :: rest) ++ ['\n']) =
        ('\n' :: joinNl (b :: rest)) ++ ['\n'] from rfl]
      exact List.getLast?_concat _
    · intro p hnl hp hbody
      have h1 : occursIn p (joinNl (b :: rest)) = false := joinNl_free hnl hp hbody
      have h2 : occursIn p (joinNl (b :: rest) ++ '\n' :: []) = false :=
        nlSplitFree hnl h1 (occursIn_nil hp)
      have h3 : occursIn p (([] : List Char) ++ '\n' :: (joinNl (b :: rest) ++ '\n' :: [])) =
          false := nlSplitFree hnl (occursIn_nil hp) h2
      simpa using h3

theorem buildGeneratedBlock_lines (T : List TemplateWithSource) (rules : List (List Char))
    (o : MergeGitignoreOptions) :
    buildGeneratedBlock T rules o = [] ∨
    ∃ lines2 : List (List Char), lines2 ≠ [] ∧
      buildGeneratedBlock T rules o = joinNl lines2 ∧
      lines2.Sublist (GENERATED_BLOCK_START ::
        ((buildTemplateSections o.useSimpleSectionSeparator T rules).1 ++
          [GENERATED_BLOCK_END])) := by
  obtain ⟨wm, sep⟩ := o
  cases wm with
  | true =>
    obtain ⟨body, hb, hbody⟩ := buildGeneratedBlock_shape T rules sep
    right
    refine ⟨GENERATED_BLOCK_START :: (body ++ [GENERATED_BLOCK_END]), by simp, hb, ?_⟩
    exact List.Sublist.cons₂ _ (List.Sublist.append hbody (List.Sublist.refl _))
  | false =>
    have hunfold : buildGeneratedBlock T rules ⟨false, sep⟩ =
        (let lines0 := (buildTemplateSections sep T rules).1
         let lines1 := if lines0.getLast? = some [] then lines0.dropLast else lines0
         if lines1 = [] then [] else joinNl lines1) := rfl
    rw [hunfold]
    simp only []
    set secs := (buildTemplateSections sep T rules).1 with hsecs
    have hsub1 : (if secs.getLast? = some [] then secs.dropLast else secs).Sublist secs := by
      split
      · exact List.dropLast_sublist secs
      · exact List.Sublist.refl secs
    set lines1 := if secs.getLast? = some [] then secs.dropLast else secs with hlines1
    by_cases hnil : lines1 = []
    · left
      rw [if_pos hnil]
    · right
      refine ⟨lines1, hnil, by rw [if_neg hnil], ?_⟩
      exact (hsub1.trans (List.sublist_append_left secs [GENERATED_BLOCK_END])).cons _

theorem block_noCR {T : List TemplateWithSource} (rules : List (List Char)) (sep : Bool)
    (hT : ∀ t ∈ T, '\r' ∉ t.meta.name) :
    '\r' ∉ buildGeneratedBlock T rules ⟨true, sep⟩ := by
  obtain ⟨body, hb, hbody⟩ := buildGeneratedBlock_shape T rules sep
  rw [hb]
  intro hm
  rcases joinNl_chars hm with h | ⟨l, hl, hcl⟩
  · exact absurd h (by decide)
  · rcases List.mem_cons.1 hl with h1 | h1
    · subst h1
      revert hcl
      decide
    · rcases List.mem_append.1 h1 with h2 | h2
      · exact buildTemplateSections_noCR sep T rules hT l (hbody.subset h2) hcl
      · rw [List.mem_singleton.1 h2] at hcl
        revert hcl
        decide

theorem strip_compose (manual B : List Char)
    (hman_fix : trimEnd (normalizeNewlines manual) = manual)
    (hman_nocr : '\r' ∉ manual)
    (hM : occursIn GENERATED_BLOCK_START manual = false)
    (hBnocr : '\r' ∉ B)
    (hBfreeE : occursIn GENERATED_BLOCK_END B = false)
    (hBend : B.getLast? = some '\n') :
    stripGeneratedBlock (composeOutput manual
      (GENERATED_BLOCK_START ++ (B ++ GENERATED_BLOCK_END))) = manual := by
  have hnm : normalizeNewlines manual = manual := normalizeNewlines_eq_self hman_nocr
  have htm : trimEnd manual = manual := by rw [hnm] at hman_fix; exact hman_fix
  have hcompose : composeOutput manual (GENERATED_BLOCK_START ++ (B ++ GENERATED_BLOCK_END)) =
      if manual = [] then (GENERATED_BLOCK_START ++ (B ++ GENERATED_BLOCK_END)) ++ ['\n']
      else manual ++ '\n' :: '\n' ::
        ((GENERATED_BLOCK_START ++ (B ++ GENERATED_BLOCK_END)) ++ ['\n']) := by
    simp only [composeOutput]
    rw [hnm, htm]
  rw [hcompose]
  by_cases hman : manual = []
  · rw [if_pos hman]
    have hnocr : '\r' ∉ (GENERATED_BLOCK_START ++ (B ++ GENERATED_BLOCK_END)) ++ ['\n'] := by
      intro hm
      rcases List.mem_append.1 hm with h | h
      · rcases List.mem_append.1 h with h1 | h1
        · revert h1; decide
        · rcases List.mem_append.1 h1 with h2 | h2
          · exact hBnocr h2
          · revert h2; decide
      · simp at h
    have hshape2 : (GENERATED_BLOCK_START ++ (B ++ GENERATED_BLOCK_END)) ++ ['\n'] =
        ([] : List Char) ++
          (GENERATED_BLOCK_START ++ (B ++ (GENERATED_BLOCK_END ++ '\n' :: []))) := by
      simp [List.append_assoc]
    unfold stripGeneratedBlock
    rw [normalizeNewlines_eq_self hnocr, hshape2,
      removeBlocks_step [] B [] (occursIn_nil startNeNil) (Or.inl rfl) hBfreeE hBend, hman]
    rfl
  · rw [if_neg hman]
    have hA : occursIn GENERATED_BLOCK_START (manual ++ '\n' :: ['\n']) = false := by
      apply nlSplitFree (by decide) hM
      decide
    have hAend : (manual ++ '\n' :: ['\n']).getLast? = some '\n' := by
      rw [show manual ++ '\n' :: ['\n'] = (manual ++ ['\n']) ++ ['\n'] by simp]
      exact List.getLast?_concat _
    have hnocr : '\r' ∉ manual ++ '\n' :: '\n' ::
        ((GENERATED_BLOCK_START ++ (B ++ GENERATED_BLOCK_END)) ++ ['\n']) := by
      intro hm
      rcases List.mem_append.1 hm with h | h
      · exact hman_nocr h
      · rcases List.mem_cons.1 h with h1 | h1
        · revert h1; decide
        · rcases List.mem_cons.1 h1 with h2 | h2
          · revert h2; decide
          · rcases List.mem_append.1 h2 with h3 | h3
            · rcases List.mem_append.1 h3 with h4 | h4
              · revert h4; decide
              · rcases List.mem_append.1 h4 with h5 | h5
                · exact hBnocr h5
                · revert h5; decide
            · simp at h3
    have hshape2 : manual ++ '\n' :: '\n' ::
        ((GENERATED_BLOCK_START ++ (B ++ GENERATED_BLOCK_END)) ++ ['\n']) =
        (manual ++ '\n' :: ['\n']) ++
          (GENERATED_BLOCK_START ++ (B ++ (GENERATED_BLOCK_END ++ '\n' :: []))) := by
      simp [List.append_assoc]
    unfold stripGeneratedBlock
    rw [normalizeNewlines_eq_self hnocr, hshape2,
      removeBlocks_step _ B [] hA (Or.inr hAend) hBfreeE hBend]
    have hrb : removeBlocks ([] : List Char) = [] := rfl
    rw [hrb, List.append_nil]
    rw [trimEnd_append_ws manual (by intro c hc; rcases List.mem_cons.1 hc with h | h
                                     · rw [h]; decide
                                     · rw [List.mem_singleton.1 h]; decide)]
    exact htm

theorem strip_merge_core (M0 : Option (List Char)) (T : List TemplateWithSource) (sep : Bool)
    (hM : occursIn GENERATED_BLOCK_START (stripGeneratedBlock (M0.getD [])) = false)
    (hT : ∀ t ∈ T, cleanTemplate t) :
    stripGeneratedBlock (mergeGitignore ⟨M0, T, true, sep⟩) =
      stripGeneratedBlock (M0.getD []) := by
  obtain ⟨body, hbshape, hbodysub⟩ :=
    buildGeneratedBlock_shape T (collectRuleSet (stripGeneratedBlock (M0.getD []))) sep
  obtain ⟨B, hBeq, hBend, hBfree⟩ := joinNl_sentinel_shape body
  have hblockeq : buildGeneratedBlock T
      (collectRuleSet (stripGeneratedBlock (M0.getD []))) ⟨true, sep⟩ =
      GENERATED_BLOCK_START ++ (B ++ GENERATED_BLOCK_END) := by
    rw [hbshape, hBeq]
  have hmerge : mergeGitignore ⟨M0, T, true, sep⟩ =
      composeOutput (stripGeneratedBlock (M0.getD []))
        (GENERATED_BLOCK_START ++ (B ++ GENERATED_BLOCK_END)) := by
    show composeOutput (stripGeneratedBlock (M0.getD []))
        (buildGeneratedBlock T (collectRuleSet (stripGeneratedBlock (M0.getD []))) ⟨true, sep⟩) =
      composeOutput (stripGeneratedBlock (M0.getD []))
        (GENERATED_BLOCK_START ++ (B ++ GENERATED_BLOCK_END))
    rw [hblockeq]
  rw [hmerge]
  apply strip_compose
  · rw [strip_normalize_fixed]
    exact strip_trimEnd_fixed _
  · exact strip_noCR _
  · exact hM
  · intro hm
    have hmem : '\r' ∈ buildGeneratedBlock T
        (collectRuleSet (stripGeneratedBlock (M0.getD []))) ⟨true, sep⟩ := by
      rw [hblockeq]
      exact List.mem_append_right _ (List.mem_append_left _ hm)
    exact block_noCR _ sep (fun t ht => (hT t ht).1) hmem
  · apply hBfree _ (by decide) (by decide)
    intro l hl
    apply buildTemplateSections_free sep (Or.inr rfl) T _ ?_ l (hbodysub.subset hl)
    intro t ht
    obtain ⟨h1, h2, h3, h4, h5, h6⟩ := hT t ht
    exact ⟨h4, h6, h2⟩
  · exact hBend

theorem getLast?_append_right {x y : List Char} {c : Char} (h : y.getLast? = some c) :
    (x ++ y).getLast? = some c := by
  induction x with
  | nil => exact h
  | cons a x ih =>
    cases hx : x ++ y with
    | nil =>
      have : y = [] := by
        cases x <;> simp_all
      rw [this] at h
      cases h
    | cons b l =>
      rw [List.cons_append, hx, List.getLast?_cons_cons, ← hx]
      exact ih

/-- Claim C9: for every input (existing content possibly null, any templates,
any options) the string returned by `mergeGitignore` is non-empty and its last
character is a newline. -/
theorem merge_output_trailing_newline (input : MergeGitignoreInput) :
    mergeGitignore input ≠ [] ∧ (mergeGitignore input).getLast? = some '\n' := by
  have hunfold : mergeGitignore input =
      (let manual := trimEnd (normalizeNewlines (stripGeneratedBlock
        (input.existingContent.getD [])))
       let block := buildGeneratedBlock input.templates
         (collectRuleSet (stripGeneratedBlock (input.existingContent.getD [])))
         ⟨input.includeWatermark, input.useSimpleSectionSeparator⟩
       if manual = [] then block ++ ['\n'] else manual ++ '\n' :: '\n' :: (block ++ ['\n'])) :=
    rfl
  rw [hunfold]
  simp only []
  split
  · constructor
    · simp
    · exact List.getLast?_concat _
  · constructor
    · simp
    · apply getLast?_append_right
      rw [show ('\n' :: '\n' :: (buildGeneratedBlock input.templates
          (collectRuleSet (stripGeneratedBlock (input.existingContent.getD [])))
          ⟨input.includeWatermark, input.useSimpleSectionSeparator⟩ ++ ['\n'])) =
        ('\n' :: '\n' :: buildGeneratedBlock input.templates
          (collectRuleSet (stripGeneratedBlock (input.existingContent.getD [])))
          ⟨input.includeWatermark, input.useSimpleSectionSeparator⟩) ++ ['\n'] from by simp]
      exact List.getLast?_concat _

/-- Claim C3 (amended): with an empty template list `buildGeneratedBlock`
returns the empty string when `includeWatermark` is false, but returns the two
sentinel lines (joined by a newline) when `includeWatermark` is true — not the
empty string. -/
theorem buildGeneratedBlock_empty_templates (rules : List (List Char)) (sep : Bool) :
    buildGeneratedBlock [] rules ⟨false, sep⟩ = [] ∧
    buildGeneratedBlock [] rules ⟨true, sep⟩ =
      GENERATED_BLOCK_START ++ '\n' :: GENERATED_BLOCK_END :=
  ⟨rfl, rfl⟩

/-- Counterexample to claim C3 as stated: with the watermark enabled the
output for an empty template list is not the empty string. -/
theorem buildGeneratedBlock_empty_cex :
    buildGeneratedBlock [] [] ⟨true, false⟩ ≠ [] := by decide

/-- Claim C10 (amended): `stripGeneratedBlock` is idempotent on every input
whose stripped result contains no further occurrence of the start sentinel
(removal can splice surrounding text into a fresh sentinel occurrence, in
which case a second strip removes more). -/
theorem strip_idempotent_no_start (c : List Char)
    (h : occursIn GENERATED_BLOCK_START (stripGeneratedBlock c) = false) :
    stripGeneratedBlock (stripGeneratedBlock c) = stripGeneratedBlock c := by
  show trimEnd (removeBlocks (normalizeNewlines (stripGeneratedBlock c))) = stripGeneratedBlock c
  rw [strip_normalize_fixed, removeBlocks_no_start h, strip_trimEnd_fixed]

set_option maxRecDepth 8000 in
/-- Counterexample to claim C10 as stated: deleting a sentinel block can glue
the surrounding text into a new sentinel occurrence, so a second strip removes
more text than the first. -/
theorem strip_idempotent_cex :
    stripGeneratedBlock (stripGeneratedBlock (str "### IGNORE-HUB GENERATED ST" ++
      GENERATED_BLOCK_START ++ GENERATED_BLOCK_END ++ str "ART\n" ++ GENERATED_BLOCK_END)) ≠
    stripGeneratedBlock (str "### IGNORE-HUB GENERATED ST" ++ GENERATED_BLOCK_START ++
      GENERATED_BLOCK_END ++ str "ART\n" ++ GENERATED_BLOCK_END) := by decide

set_option maxRecDepth 8000 in
/-- Witness for claim C10: a content string with one complete generated block
satisfies the hypothesis, and stripping it twice equals stripping it once. -/
theorem strip_idempotent_witness :
    (occursIn GENERATED_BLOCK_START (stripGeneratedBlock (str "x\n" ++
      GENERATED_BLOCK_START ++ str "\n" ++ GENERATED_BLOCK_END ++ str "\n")) = false) ∧
    stripGeneratedBlock (stripGeneratedBlock (str "x\n" ++ GENERATED_BLOCK_START ++
      str "\n" ++ GENERATED_BLOCK_END ++ str "\n")) =
      stripGeneratedBlock (str "x\n" ++ GENERATED_BLOCK_START ++ str "\n" ++
        GENERATED_BLOCK_END ++ str "\n") :=
  ⟨by decide, strip_idempotent_no_start _ (by decide)⟩

/-- Claim C5 (amended): with the watermark enabled, for every existing content
whose stripped manual portion contains no start-sentinel occurrence and
templates whose names and sources contain no carriage returns and no sentinel
substrings, stripping the merge output returns exactly the manual content
(the newline-normalized, trailing-trimmed manual portion of the input). -/
theorem manual_preservation_watermarked (M : Option (List Char))
    (T : List TemplateWithSource) (sep : Bool)
    (hM : occursIn GENERATED_BLOCK_START (stripGeneratedBlock (M.getD [])) = false)
    (hT : ∀ t ∈ T, cleanTemplate t) :
    stripGeneratedBlock (mergeGitignore ⟨M, T, true, sep⟩) =
      stripGeneratedBlock (M.getD []) :=
  strip_merge_core M T sep hM hT

/-- Counterexample to claim C5 as stated: with `includeWatermark: false` the
generated block carries no sentinels, so `stripGeneratedBlock` cannot remove
it and the round-trip does not return the manual content. -/
theorem manual_preservation_cex :
    stripGeneratedBlock (mergeGitignore ⟨none, [demoNodeTemplate], false, false⟩) ≠
      stripGeneratedBlock ((none : Option (List Char)).getD []) := by decide

set_option maxRecDepth 8000 in
/-- Witness for claim C5: a concrete manual content and template satisfying
the hypotheses, with the round-trip equality evaluated. -/
theorem manual_preservation_witness :
    (occursIn GENERATED_BLOCK_START
      (stripGeneratedBlock ((some (str "# Manual\nvenv/\n")).getD [])) = false) ∧
    ((∀ t ∈ [demoNodeTemplate], cleanTemplate t) ∧
    stripGeneratedBlock (mergeGitignore ⟨some (str "# Manual\nvenv/\n"), [demoNodeTemplate],
      true, false⟩) = stripGeneratedBlock ((some (str "# Manual\nvenv/\n")).getD [])) :=
  ⟨by decide, by decide,
    manual_preservation_watermarked (some (str "# Manual\nvenv/\n")) [demoNodeTemplate] false
      (by decide) (by decide)⟩

set_option maxRecDepth 8000 in
/-- Claim C1 (amended): with the watermark enabled, for every existing content
whose stripped manual portion contains no start-sentinel occurrence and clean
templates, the merge is idempotent: feeding the output back in reproduces it
byte for byte, and so does any number of repeated applications. -/
theorem merge_idempotent_watermarked (M : Option (List Char))
    (T : List TemplateWithSource) (sep : Bool)
    (hM : occursIn GENERATED_BLOCK_START (stripGeneratedBlock (M.getD [])) = false)
    (hT : ∀ t ∈ T, cleanTemplate t) :
    mergeGitignore ⟨some (mergeGitignore ⟨M, T, true, sep⟩), T, true, sep⟩ =
      mergeGitignore ⟨M, T, true, sep⟩ ∧
    ∀ n : Nat, (fun c => mergeGitignore ⟨some c, T, true, sep⟩)^[n]
      (mergeGitignore ⟨M, T, true, sep⟩) = mergeGitignore ⟨M, T, true, sep⟩ := by
  have hstrip := strip_merge_core M T sep hM hT
  have hone : mergeGitignore ⟨some (mergeGitignore ⟨M, T, true, sep⟩), T, true, sep⟩ =
      mergeGitignore ⟨M, T, true, sep⟩ := by
    have h2 : mergeGitignore ⟨some (mergeGitignore ⟨M, T, true, sep⟩), T, true, sep⟩ =
        composeOutput (stripGeneratedBlock (mergeGitignore ⟨M, T, true, sep⟩))
          (buildGeneratedBlock T
            (collectRuleSet (stripGeneratedBlock (mergeGitignore ⟨M, T, true, sep⟩)))
            ⟨true, sep⟩) := rfl
    rw [h2, hstrip]
    rfl
  refine ⟨hone, ?_⟩
  intro n
  induction n with
  | zero => rfl
  | succ n ih =>
    rw [Function.iterate_succ_apply', ih]
    exact hone

/-- Counterexample to claim C1 as stated: with `includeWatermark: false` the
second merge absorbs the first generated block into the manual portion and
appends a stripped-down second block, so the output changes. -/
theorem merge_idempotent_cex :
    mergeGitignore ⟨some (mergeGitignore ⟨none, [demoNodeTemplate], false, true⟩),
      [demoNodeTemplate], false, true⟩ ≠
      mergeGitignore ⟨none, [demoNodeTemplate], false, true⟩ := by decide

set_option maxRecDepth 8000 in
/-- Witness for claim C1: concrete inputs satisfying the hypotheses, with the
re-merge equality evaluated. -/
theorem merge_idempotent_witness :
    (occursIn GENERATED_BLOCK_START
      (stripGeneratedBlock ((some (str "# Manual\nvenv/\n")).getD [])) = false) ∧
    mergeGitignore ⟨some (mergeGitignore ⟨some (str "# Manual\nvenv/\n"),
      [demoNodeTemplate], true, false⟩), [demoNodeTemplate], true, false⟩ =
      mergeGitignore ⟨some (str "# Manual\nvenv/\n"), [demoNodeTemplate], true, false⟩ :=
  ⟨by decide, (merge_idempotent_watermarked (some (str "# Manual\nvenv/\n"))
    [demoNodeTemplate] false (by decide) (by decide)).1⟩

theorem eq_dropLast_append {x : List Char} {c : Char} (h : x.getLast? = some c) :
    x = x.dropLast ++ [c] := by
  induction x with
  | nil => cases h
  | cons a t ih =>
    cases t with
    | nil =>
      simp only [List.getLast?_singleton, Option.some.injEq] at h
      simp [h]
    | cons b t2 =>
      rw [List.getLast?_cons_cons] at h
      have hdl : (a :: b :: t2).dropLast = a :: (b :: t2).dropLast := by
        simp [List.dropLast]
      rw [hdl, List.cons_append, ← ih h]

theorem append_free_of_last_nl {p x y : List Char} (hnl : '\n' ∉ p)
    (hx : occursIn p x = false) (hy : occursIn p y = false)
    (hlast : x.getLast? = some '\n') : occursIn p (x ++ y) = false := by
  have hxdrop : occursIn p x.dropLast = false := by
    cases hb : occursIn p x.dropLast with
    | false => rfl
    | true =>
      have h2 := occursIn_append_left ['\n'] hb
      rw [← eq_dropLast_append hlast] at h2
      rw [h2] at hx
      cases hx
  rw [show x ++ y = x.dropLast ++ '\n' :: y from by
    conv_lhs => rw [eq_dropLast_append hlast]
    rw [List.append_assoc]
    rfl]
  exact nlSplitFree hnl hxdrop hy

theorem removeBlocks_assemble (segs : List (List Char × List Char)) (tail : List Char)
    (hA : ∀ q ∈ segs, occursIn GENERATED_BLOCK_START q.1 = false ∧
      (q.1 = [] ∨ q.1.getLast? = some '\n'))
    (hB : ∀ q ∈ segs, occursIn GENERATED_BLOCK_END q.2 = false ∧ q.2.getLast? = some '\n')
    (hT : occursIn GENERATED_BLOCK_START tail = false) :
    removeBlocks (assembleBlocks segs tail) =
      (segs.map Prod.fst).foldr (· ++ ·) tail := by
  induction segs with
  | nil => exact removeBlocks_no_start hT
  | cons q rest ih =>
    obtain ⟨a, b⟩ := q
    obtain ⟨hA1, hA2⟩ := hA (a, b) (by simp)
    obtain ⟨hB1, hB2⟩ := hB (a, b) (by simp)
    show removeBlocks (a ++ (GENERATED_BLOCK_START ++ (b ++ (GENERATED_BLOCK_END ++
      '\n' :: assembleBlocks rest tail)))) = _
    rw [removeBlocks_step a b _ hA1 hA2 hB1 hB2]
    rw [ih (fun u hu => hA u (List.mem_cons_of_mem _ hu))
      (fun u hu => hB u (List.mem_cons_of_mem _ hu))]
    rfl

theorem foldr_append_free {p : List Char} (hnl : '\n' ∉ p) (hp : p ≠ []) :
    ∀ (xs : List (List Char)) (tail : List Char),
      (∀ x ∈ xs, occursIn p x = false ∧ (x = [] ∨ x.getLast? = some '\n')) →
      occursIn p tail = false →
      occursIn p (xs.foldr (· ++ ·) tail) = false := by
  intro xs
  induction xs with
  | nil => intro tail _ ht; exact ht
  | cons x xs ih =>
    intro tail hx ht
    have h1 := hx x (by simp)
    have hrest := ih tail (fun u hu => hx u (List.mem_cons_of_mem _ hu)) ht
    show occursIn p (x ++ xs.foldr (· ++ ·) tail) = false
    rcases h1.2 with hnil | hlast
    · rw [hnil]
      simpa using hrest
    · exact append_free_of_last_nl hnl h1.1 hrest hlast

/-- Claim C4 (amended): for inputs consisting of complete sentinel-delimited
blocks — manual segments free of both sentinels ending in a newline (or
empty), block interiors free of the end sentinel ending in a newline, each
end sentinel followed by a newline, and no carriage returns — the stripped
output contains no occurrence of either sentinel.  For malformed inputs
(e.g. an unmatched start sentinel) the guarantee fails. -/
theorem strip_no_sentinels (segs : List (List Char × List Char)) (tail : List Char)
    (hA : ∀ q ∈ segs, occursIn GENERATED_BLOCK_START q.1 = false ∧
      occursIn GENERATED_BLOCK_END q.1 = false ∧ (q.1 = [] ∨ q.1.getLast? = some '\n'))
    (hB : ∀ q ∈ segs, occursIn GENERATED_BLOCK_END q.2 = false ∧ q.2.getLast? = some '\n')
    (hT : occursIn GENERATED_BLOCK_START tail = false ∧
      occursIn GENERATED_BLOCK_END tail = false)
    (hcr : '\r' ∉ assembleBlocks segs tail) :
    occursIn GENERATED_BLOCK_START (stripGeneratedBlock (assembleBlocks segs tail)) = false ∧
    occursIn GENERATED_BLOCK_END (stripGeneratedBlock (assembleBlocks segs tail)) = false := by
  unfold stripGeneratedBlock
  rw [normalizeNewlines_eq_self hcr]
  rw [removeBlocks_assemble segs tail (fun q hq => ⟨(hA q hq).1, (hA q hq).2.2⟩) hB hT.1]
  constructor
  · apply occursIn_trimEnd_free
    apply foldr_append_free (by decide) startNeNil _ tail _ hT.1
    intro x hx
    obtain ⟨q, hq, hqx⟩ := List.mem_map.1 hx
    exact ⟨hqx ▸ (hA q hq).1, hqx ▸ (hA q hq).2.2⟩
  · apply occursIn_trimEnd_free
    apply foldr_append_free (by decide) (by decide) _ tail _ hT.2
    intro x hx
    obtain ⟨q, hq, hqx⟩ := List.mem_map.1 hx
    exact ⟨hqx ▸ (hA q hq).2.1, hqx ▸ (hA q hq).2.2⟩

set_option maxRecDepth 8000 in
/-- Counterexample to claim C4 as stated: an unmatched start sentinel is not
removed, so the output still contains it. -/
theorem strip_sentinel_cex :
    occursIn GENERATED_BLOCK_START (stripGeneratedBlock GENERATED_BLOCK_START) = true := by
  decide

set_option maxRecDepth 8000 in
/-- Witness for claim C4: a concrete well-formed input with one complete
block; the hypotheses hold and the stripped output carries no sentinels. -/
theorem strip_no_sentinels_witness :
    ((∀ q ∈ [((str "# keep\n" : List Char), (str "\nfoo\n" : List Char))],
      occursIn GENERATED_BLOCK_START q.1 = false ∧
      occursIn GENERATED_BLOCK_END q.1 = false ∧ (q.1 = [] ∨ q.1.getLast? = some '\n')) ∧
    (∀ q ∈ [((str "# keep\n" : List Char), (str "\nfoo\n" : List Char))],
      occursIn GENERATED_BLOCK_END q.2 = false ∧ q.2.getLast? = some '\n')) ∧
    occursIn GENERATED_BLOCK_START (stripGeneratedBlock
      (assembleBlocks [(str "# keep\n", str "\nfoo\n")] (str "# after\n"))) = false ∧
    occursIn GENERATED_BLOCK_END (stripGeneratedBlock
      (assembleBlocks [(str "# keep\n", str "\nfoo\n")] (str "# after\n"))) = false :=
  ⟨⟨by decide, by decide⟩,
    strip_no_sentinels [(str "# keep\n", str "\nfoo\n")] (str "# after\n")
      (by decide) (by decide) (by decide) (by decide)⟩

theorem removeSuffix_append (u suf : List Char) : removeSuffix (u ++ suf) suf = u := by
  unfold removeSuffix
  rw [List.reverse_append]
  rw [if_pos (isPre_append_right _ (isPre_refl _))]
  rw [show suf.length = suf.reverse.length from (List.length_reverse suf).symm,
    List.drop_left, List.reverse_reverse]

theorem endsWith_decomp {p suf : List Char} (h : isPre suf.reverse p.reverse = true) :
    p = p.take (p.length - suf.length) ++ suf ∧
    removeSuffix p suf = p.take (p.length - suf.length) := by
  have h1 := isPre_split h
  have h2 : p = (p.reverse.drop suf.reverse.length).reverse ++ suf := by
    have h3 := congrArg List.reverse h1
    rw [List.reverse_reverse, List.reverse_append, List.reverse_reverse] at h3
    exact h3
  have hlen : (p.reverse.drop suf.reverse.length).reverse.length = p.length - suf.length := by
    rw [List.length_reverse, List.length_drop, List.length_reverse, List.length_reverse]
  have htake : p.take (p.length - suf.length) = (p.reverse.drop suf.reverse.length).reverse := by
    have htake0 := List.take_left (p.reverse.drop suf.reverse.length).reverse suf
    rw [← h2, hlen] at htake0
    exact htake0
  constructor
  · rw [htake]
    exact h2
  · rw [htake]
    conv_lhs => rw [h2]
    exact removeSuffix_append _ _

theorem getTemplateIdFromPath_eq (p : List Char) :
    getTemplateIdFromPath p = removeSuffix p (str ".gitignore") := by
  unfold getTemplateIdFromPath
  exact ite_self _

theorem getTemplateNameFromPath_eq (p : List Char) :
    getTemplateNameFromPath p =
      (if isPre (str "Global/") (removeSuffix p (str ".gitignore")) = true
        then (removeSuffix p (str ".gitignore")).drop 7
        else removeSuffix p (str ".gitignore")) := rfl

/-- Claim C6 (amended): for every accepted template path, a root-level
template has `name` equal to `id`, while a `Global/` template has
`id = "Global/" ++ name` — so name and id differ exactly on the Global
namespace. -/
theorem classify_name_id (p : List Char) (m : TemplateMeta)
    (h : classifyTemplatePath p = some m) :
    (isPre (str "Global/") p = true → m.id = str "Global/" ++ m.name) ∧
    (isPre (str "Global/") p = false → m.name = m.id) := by
  by_cases hsup : isSupportedTemplatePath p = true
  · rw [show classifyTemplatePath p =
        (if isPre (str "Global/") p
          then some ⟨getTemplateIdFromPath p, getTemplateNameFromPath p, p, .global⟩
          else some ⟨getTemplateIdFromPath p, getTemplateNameFromPath p, p,
            classifyRootTemplate (getTemplateNameFromPath p)⟩) from by
      unfold classifyTemplatePath
      rw [if_neg (by simp [hsup])]] at h
    have hsup2 : rootTemplateMatch p = true ∨ globalTemplateMatch p = true := by
      have h0 : (rootTemplateMatch p || globalTemplateMatch p) = true := hsup
      simpa [Bool.or_eq_true] using h0
    rcases hsup2 with hroot | hglob
    · -- root pattern: the path has no slash before the suffix
      unfold rootTemplateMatch at hroot
      rw [Bool.and_eq_true, Bool.and_eq_true] at hroot
      obtain ⟨⟨hlen, hsuf⟩, hall⟩ := hroot
      obtain ⟨hdecomp, hclean⟩ := endsWith_decomp hsuf
      have h10 : (str ".gitignore").length = 10 := rfl
      have hgp : isPre (str "Global/") p = false := by
        cases hb : isPre (str "Global/") p with
        | false => rfl
        | true =>
          exfalso
          have hmem : '/' ∈ p := by
            rw [isPre_split hb]
            exact List.mem_append_left _ (by decide)
          rw [h10] at hdecomp
          rw [hdecomp] at hmem
          rcases List.mem_append.1 hmem with hm | hm
          · have := List.all_eq_true.1 hall _ hm
            simp at this
          · revert hm
            decide
      rw [if_neg (by simp [hgp])] at h
      have hm2 := Option.some.inj h
      subst hm2
      constructor
      · intro hc
        rw [hgp] at hc
        cases hc
      intro _
      show getTemplateNameFromPath p = getTemplateIdFromPath p
      rw [h10] at hclean
      have hgc : isPre (str "Global/") (removeSuffix p (str ".gitignore")) = false := by
        cases hb : isPre (str "Global/") (removeSuffix p (str ".gitignore")) with
        | false => rfl
        | true =>
          exfalso
          have hmem : '/' ∈ removeSuffix p (str ".gitignore") := by
            rw [isPre_split hb]
            exact List.mem_append_left _ (by decide)
          rw [hclean] at hmem
          have := List.all_eq_true.1 hall _ hmem
          simp at this
      have hname : getTemplateNameFromPath p = removeSuffix p (str ".gitignore") := by
        rw [getTemplateNameFromPath_eq, if_neg (by simp [hgc])]
      rw [getTemplateIdFromPath_eq, hname]
    · -- Global pattern
      unfold globalTemplateMatch at hglob
      rw [Bool.and_eq_true] at hglob
      obtain ⟨hgp, hrest⟩ := hglob
      rw [Bool.and_eq_true, Bool.and_eq_true] at hrest
      obtain ⟨⟨hlen, hsuf⟩, -⟩ := hrest
      have h10 : (str ".gitignore").length = 10 := rfl
      obtain ⟨hdecomp, -⟩ := endsWith_decomp hsuf
      set mid := (p.drop 7).take ((p.drop 7).length - (str ".gitignore").length) with hmid
      have hp7 : p = str "Global/" ++ (mid ++ str ".gitignore") := by
        have h0 : p = str "Global/" ++ p.drop 7 := by
          have h1 := isPre_split hgp
          rwa [show (str "Global/").length = 7 from rfl] at h1
        conv_lhs => rw [h0]
        rw [hdecomp]
      have hpshape : p = (str "Global/" ++ mid) ++ str ".gitignore" := by
        rw [hp7, List.append_assoc]
      have hclean2 : removeSuffix p (str ".gitignore") = str "Global/" ++ mid := by
        conv_lhs => rw [hpshape]
        exact removeSuffix_append _ _
      rw [if_pos (by simp [hgp])] at h
      have hm2 := Option.some.inj h
      subst hm2
      constructor
      swap
      · intro hc
        rw [hgp] at hc
        cases hc
      intro _
      show getTemplateIdFromPath p = str "Global/" ++ getTemplateNameFromPath p
      have hgc : isPre (str "Global/") (str "Global/" ++ mid) = true :=
        isPre_append_right _ (isPre_refl _)
      have hname : getTemplateNameFromPath p = mid := by
        rw [getTemplateNameFromPath_eq, hclean2, if_pos hgc]
        rw [show (7 : Nat) = (str "Global/").length from rfl, List.drop_left]
      rw [getTemplateIdFromPath_eq, hname, hclean2]
  · exfalso
    unfold classifyTemplatePath at h
    rw [if_pos (by simpa using hsup)] at h
    cases h

set_option maxRecDepth 8000 in
/-- Counterexample to claim C6 as stated: a `Global/` template keeps the
`Global/` prefix in its id but not in its name, so name differs from id. -/
theorem classify_name_id_cex :
    classifyTemplatePath (str "Global/JetBrains.gitignore") =
      some ⟨str "Global/JetBrains", str "JetBrains", str "Global/JetBrains.gitignore",
        TemplateKind.global⟩ ∧
    (str "Global/JetBrains" : List Char) ≠ str "JetBrains" := by decide

set_option maxRecDepth 8000 in
/-- Witness for claim C6: a root template path is classified with name equal
to id. -/
theorem classify_name_id_witness :
    (isPre (str "Global/") (str "Node.gitignore") = true →
      (⟨str "Node", str "Node", str "Node.gitignore", TemplateKind.framework⟩ :
        TemplateMeta).id = str "Global/" ++
        (⟨str "Node", str "Node", str "Node.gitignore", TemplateKind.framework⟩ :
          TemplateMeta).name) ∧
    (isPre (str "Global/") (str "Node.gitignore") = false →
      (⟨str "Node", str "Node", str "Node.gitignore", TemplateKind.framework⟩ :
        TemplateMeta).name =
        (⟨str "Node", str "Node", str "Node.gitignore", TemplateKind.framework⟩ :
          TemplateMeta).id) :=
  classify_name_id (str "Node.gitignore")
    ⟨str "Node", str "Node", str "Node.gitignore", TemplateKind.framework⟩ (by decide)

theorem collectRulesAux_mono {x : List Char} :
    ∀ {ls acc : List (List Char)}, x ∈ acc → x ∈ collectRulesAux acc ls := by
  intro ls
  induction ls with
  | nil => intro acc h; exact h
  | cons l rest ih =>
    intro acc h
    simp only [collectRulesAux]
    split
    · split
      · exact ih h
      · exact ih (List.mem_append_left _ h)
    · exact ih h

theorem mem_collectRulesAux {l : List Char} :
    ∀ {ls acc : List (List Char)}, l ∈ ls → isRuleLine l = true →
      normalizeRuleLine l ∈ collectRulesAux acc ls := by
  intro ls
  induction ls with
  | nil => intro acc h; simp at h
  | cons l0 rest ih =>
    intro acc h hr
    rcases List.mem_cons.1 h with h1 | h1
    · subst h1
      simp only [collectRulesAux, hr, if_true]
      split
      · exact collectRulesAux_mono ‹normalizeRuleLine l ∈ acc›
      · exact collectRulesAux_mono (List.mem_append_right _ (by simp))
    · simp only [collectRulesAux]
      split
      · split
        · exact ih h1 hr
        · exact ih h1 hr
      · exact ih h1 hr

theorem mem_collectRuleSet {c l : List Char} (hl : l ∈ splitOnNl (normalizeNewlines c))
    (hr : isRuleLine l = true) : normalizeRuleLine l ∈ collectRuleSet c :=
  mem_collectRulesAux hl hr

theorem splitOnNl_cons_nl (x : List Char) : splitOnNl ('\n' :: x) = [] :: splitOnNl x := by
  simp [splitOnNl]

/-- Claim C2 (amended): for templates whose names contain no newline, the
lines of the merge output decompose into the manual lines, a blank separator,
the generated-block lines and a final blank; within the generated-block lines
no two rule lines share a trimmed value, and no generated rule line shares a
trimmed value with any manual rule line.  (Template names containing a
newline can inject undeduplicated rule lines through the section headers.) -/
theorem merge_rule_uniqueness (M : Option (List Char)) (T : List TemplateWithSource)
    (wm sep : Bool) (hname : ∀ t ∈ T, '\n' ∉ t.meta.name) :
    (splitOnNl (mergeGitignore ⟨M, T, wm, sep⟩) =
      if stripGeneratedBlock (M.getD []) = [] then
        splitOnNl (buildGeneratedBlock T (collectRuleSet (stripGeneratedBlock (M.getD [])))
          ⟨wm, sep⟩) ++ [[]]
      else
        splitOnNl (stripGeneratedBlock (M.getD [])) ++ [[]] ++
          splitOnNl (buildGeneratedBlock T (collectRuleSet (stripGeneratedBlock (M.getD [])))
            ⟨wm, sep⟩) ++ [[]]) ∧
    List.Pairwise dedupR (splitOnNl (buildGeneratedBlock T
      (collectRuleSet (stripGeneratedBlock (M.getD []))) ⟨wm, sep⟩)) ∧
    (∀ l ∈ splitOnNl (buildGeneratedBlock T
        (collectRuleSet (stripGeneratedBlock (M.getD []))) ⟨wm, sep⟩),
      ∀ ml ∈ splitOnNl (stripGeneratedBlock (M.getD [])),
        isRuleLine l = true → isRuleLine ml = true →
        normalizeRuleLine l ≠ normalizeRuleLine ml) := by
  have hmerge : mergeGitignore ⟨M, T, wm, sep⟩ =
      composeOutput (stripGeneratedBlock (M.getD []))
        (buildGeneratedBlock T (collectRuleSet (stripGeneratedBlock (M.getD [])))
          ⟨wm, sep⟩) := rfl
  have htm : trimEnd (normalizeNewlines (stripGeneratedBlock (M.getD []))) =
      stripGeneratedBlock (M.getD []) := by
    rw [strip_normalize_fixed, strip_trimEnd_fixed]
  have hcompose : mergeGitignore ⟨M, T, wm, sep⟩ =
      if stripGeneratedBlock (M.getD []) = [] then
        buildGeneratedBlock T (collectRuleSet (stripGeneratedBlock (M.getD [])))
          ⟨wm, sep⟩ ++ ['\n']
      else stripGeneratedBlock (M.getD []) ++ '\n' :: '\n' ::
        (buildGeneratedBlock T (collectRuleSet (stripGeneratedBlock (M.getD [])))
          ⟨wm, sep⟩ ++ ['\n']) := by
    rw [hmerge]
    simp only [composeOutput]
    rw [htm]
  constructor
  · rw [hcompose]
    split
    · rw [show (buildGeneratedBlock T (collectRuleSet (stripGeneratedBlock (M.getD [])))
          ⟨wm, sep⟩ ++ ['\n']) =
        buildGeneratedBlock T (collectRuleSet (stripGeneratedBlock (M.getD [])))
          ⟨wm, sep⟩ ++ '\n' :: [] from rfl]
      rw [splitOnNl_append_nl]
      rfl
    · rw [splitOnNl_append_nl, splitOnNl_cons_nl,
        show (buildGeneratedBlock T (collectRuleSet (stripGeneratedBlock (M.getD [])))
          ⟨wm, sep⟩ ++ ['\n']) =
        buildGeneratedBlock T (collectRuleSet (stripGeneratedBlock (M.getD [])))
          ⟨wm, sep⟩ ++ '\n' :: [] from rfl,
        splitOnNl_append_nl]
      simp [List.append_assoc, splitOnNl]
  · obtain ⟨-, hspec_rules, hspec_pw⟩ :=
      buildTemplateSections_spec sep T (collectRuleSet (stripGeneratedBlock (M.getD [])))
    rcases buildGeneratedBlock_lines T (collectRuleSet (stripGeneratedBlock (M.getD [])))
        ⟨wm, sep⟩ with hempty | ⟨lines2, hne, heq, hsub⟩
    · rw [hempty]
      constructor
      · exact List.pairwise_singleton _ _
      · intro l hl
        simp only [splitOnNl, List.mem_singleton] at hl
        subst hl
        intro ml _ hr
        rw [isRuleLine_nil] at hr
        cases hr
    · have hnl2 : ∀ l ∈ lines2, '\n' ∉ l := by
        intro l hl
        rcases List.mem_cons.1 (hsub.subset hl) with h1 | h1
        · subst h1; decide
        · rcases List.mem_append.1 h1 with h2 | h2
          · exact buildTemplateSections_no_nl sep T _ hname l h2
          · rw [List.mem_singleton.1 h2]; decide
      rw [heq, splitOnNl_joinNl hnl2 hne]
      have hpw : List.Pairwise dedupR (GENERATED_BLOCK_START ::
          ((buildTemplateSections sep T
            (collectRuleSet (stripGeneratedBlock (M.getD [])))).1 ++
            [GENERATED_BLOCK_END])) := by
        refine List.pairwise_cons.2 ⟨?_, ?_⟩
        · intro b _ hr
          exact absurd hr (by simp [isRuleLine_start])
        · rw [List.pairwise_append]
          refine ⟨hspec_pw, List.pairwise_singleton _ _, ?_⟩
          intro a _ b hb
          rw [List.mem_singleton.1 hb]
          intro _ hbr
          exact absurd hbr (by simp [isRuleLine_endSentinel])
      constructor
      · exact List.Pairwise.sublist hsub hpw
      · intro l hl ml hml hr hmr
        rcases List.mem_cons.1 (hsub.subset hl) with h1 | h1
        · subst h1
          exact absurd hr (by simp [isRuleLine_start])
        · rcases List.mem_append.1 h1 with h2 | h2
          · obtain ⟨-, hout⟩ := hspec_rules l h2 hr
            intro hcontra
            apply hout
            rw [hcontra]
            apply mem_collectRuleSet _ hmr
            rw [strip_normalize_fixed]
            exact hml
          · rw [List.mem_singleton.1 h2] at hr
            exact absurd hr (by simp [isRuleLine_endSentinel])

set_option maxRecDepth 8000 in
/-- Counterexample to claim C2 as stated: a template name containing a
newline injects an extra rule line through the section header, so a trimmed
rule value appears twice in the output although the manual portion contains
it only once. -/
theorem merge_rule_uniqueness_cex :
    (splitOnNl (mergeGitignore ⟨some (str "dist"),
      [⟨⟨str "x", str "x\ndist", str "x.gitignore", .framework⟩, []⟩], true, false⟩)).countP
        (fun l => isRuleLine l && decide (normalizeRuleLine l = str "dist")) = 2 ∧
    (splitOnNl (stripGeneratedBlock (str "dist"))).countP
        (fun l => isRuleLine l && decide (normalizeRuleLine l = str "dist")) = 1 := by
  decide

set_option maxRecDepth 8000 in
/-- Witness for claim C2: a concrete manual content and template with a
newline-free name; the decomposition and uniqueness conclusions are obtained
from the theorem with the hypothesis discharged by evaluation. -/
theorem merge_rule_uniqueness_witness :
    (∀ t ∈ [demoNodeTemplate], '\n' ∉ t.meta.name) ∧
    ((splitOnNl (mergeGitignore ⟨some (str "dist"), [demoNodeTemplate], true, false⟩) =
      if stripGeneratedBlock ((some (str "dist")).getD []) = [] then
        splitOnNl (buildGeneratedBlock [demoNodeTemplate]
          (collectRuleSet (stripGeneratedBlock ((some (str "dist")).getD [])))
          ⟨true, false⟩) ++ [[]]
      else
        splitOnNl (stripGeneratedBlock ((some (str "dist")).getD [])) ++ [[]] ++
          splitOnNl (buildGeneratedBlock [demoNodeTemplate]
            (collectRuleSet (stripGeneratedBlock ((some (str "dist")).getD [])))
            ⟨true, false⟩) ++ [[]]) ∧
    List.Pairwise dedupR (splitOnNl (buildGeneratedBlock [demoNodeTemplate]
      (collectRuleSet (stripGeneratedBlock ((some (str "dist")).getD []))) ⟨true, false⟩)) ∧
    (∀ l ∈ splitOnNl (buildGeneratedBlock [demoNodeTemplate]
        (collectRuleSet (stripGeneratedBlock ((some (str "dist")).getD []))) ⟨true, false⟩),
      ∀ ml ∈ splitOnNl (stripGeneratedBlock ((some (str "dist")).getD [])),
        isRuleLine l = true → isRuleLine ml = true →
        normalizeRuleLine l ≠ normalizeRuleLine ml)) :=
  ⟨by decide,
    merge_rule_uniqueness (some (str "dist")) [demoNodeTemplate] true false (by decide)⟩

theorem occursIn_of_isPre {p s : List Char} (h : isPre p s = true) : occursIn p s = true :=
  occursIn_of_isPre_drop (i := 0) (by simpa using h)

theorem startsWith_implies_matches {t : TemplateMeta} {q : List Char}
    (h : templateStartsWithQuery t q = true) : templateMatchesQuery t q = true := by
  unfold templateStartsWithQuery at h
  unfold templateMatchesQuery
  simp only [Bool.or_eq_true] at h ⊢
  rcases h with h | h
  · have h2 := occursIn_of_isPre h
    simp [h2]
  · have h2 := occursIn_of_isPre h
    simp [h2]

theorem insertTemplate_ne_nil (x : TemplateMeta) (l : List TemplateMeta) :
    insertTemplate x l ≠ [] := by
  cases l with
  | nil => simp [insertTemplate]
  | cons y rest =>
    unfold insertTemplate
    split <;> simp

theorem sortTemplates_eq_nil {l : List TemplateMeta} (h : sortTemplates l = []) : l = [] := by
  cases l with
  | nil => rfl
  | cons x rest =>
    exfalso
    exact insertTemplate_ne_nil x (sortTemplates rest) h

theorem dedupeTemplateIds_eq_nil {l : List TemplateMeta} (h : dedupeTemplateIds l = []) :
    l = [] := by
  cases l with
  | nil => rfl
  | cons t rest =>
    exfalso
    unfold dedupeTemplateIds dedupeTemplateIdsAux at h
    rw [if_neg (by simp)] at h
    cases h

theorem fallback_empty {tpls : List TemplateMeta} {q : List Char}
    (h : makeMatchQueryCandidates tpls q = []) : makeFallbackCandidates tpls q = [] := by
  have hf : tpls.filter (fun t => templateMatchesQuery t q) = [] :=
    dedupeTemplateIds_eq_nil (sortTemplates_eq_nil h)
  have hf2 : tpls.filter (fun t => templateStartsWithQuery t q) = [] := by
    rw [List.filter_eq_nil_iff]
    intro t ht
    have h2 := List.filter_eq_nil_iff.1 hf t ht
    intro hsw
    exact h2 (startsWith_implies_matches hsw)
  unfold makeFallbackCandidates
  rw [hf2]
  rfl

theorem dedupeKeepFirstAux_nil :
    ∀ {xs seen : List (List Char)}, dedupeKeepFirstAux seen xs = [] → ∀ x ∈ xs, x ∈ seen := by
  intro xs
  induction xs with
  | nil => intro seen _ x hx; simp at hx
  | cons y rest ih =>
    intro seen h x hx
    unfold dedupeKeepFirstAux at h
    split at h
    · rcases List.mem_cons.1 hx with h1 | h1
      · subst h1; assumption
      · exact ih h x h1
    · cases h

theorem directQueriesFrom_ne_nil (expanded : List (List Char)) (rawQuery : List Char) :
    directQueriesFrom expanded rawQuery ≠ [] := by
  intro h
  have := dedupeKeepFirstAux_nil h (normalizeTemplateName rawQuery) (by simp)
  simp at this

theorem templateAliases_inherited {q : List Char}
    (h : templateAliases q = .inheritedConstructor) : q = str "constructor" := by
  unfold templateAliases at h
  split at h
  · cases h
  split at h
  · cases h
  split at h
  · cases h
  split at h
  · cases h
  split at h
  · cases h
  split at h
  · assumption
  · cases h

theorem expandAliases_eq_none {q : List Char} (h : expandAliases q = none) :
    normalizeTemplateName q = str "constructor" := by
  unfold expandAliases at h
  cases htl : templateAliases (normalizeTemplateName q) with
  | hit aliases => rw [htl] at h; cases h
  | miss => rw [htl] at h; cases h
  | inheritedConstructor => exact templateAliases_inherited htl

theorem resolveSingleQuery_error_imp {tpls : List TemplateMeta} {q : List Char}
    {e : ResolverError} (h : resolveSingleQuery tpls q = .error e) :
    normalizeTemplateName q = str "constructor" := by
  cases hex : expandAliases q with
  | none => exact expandAliases_eq_none hex
  | some expanded =>
    exfalso
    simp only [resolveSingleQuery, hex] at h
    cases hd : resolveDirect tpls q (directQueriesFrom expanded q) with
    | some r => rw [hd] at h; cases h
    | none =>
      rw [hd] at h
      cases hf : dedupeTemplateIds ((directQueriesFrom expanded q).flatMap
          (fun u => makeFallbackCandidates tpls u)) with
      | nil => rw [hf] at h; cases h
      | cons a rest =>
        cases rest with
        | nil => rw [hf] at h; cases h
        | cons b t => rw [hf] at h; cases h

theorem headD_mem {l : List (List Char)} (h : l ≠ []) (d : List Char) : l.headD d ∈ l := by
  cases l with
  | nil => exact absurd rfl h
  | cons x rest => simp

theorem resolveDirect_none {tpls : List TemplateMeta} {rawQuery : List Char} :
    ∀ {qs : List (List Char)},
      (∀ q ∈ qs, makeExactCandidates tpls q = [] ∧ makeMatchQueryCandidates tpls q = []) →
      resolveDirect tpls rawQuery qs = none := by
  intro qs
  induction qs with
  | nil => intro _; rfl
  | cons q rest ih =>
    intro h
    have h1 := h q (by simp)
    show resolveDirect tpls rawQuery (q :: rest) = none
    simp only [resolveDirect, h1.1, h1.2]
    exact ih (fun u hu => h u (List.mem_cons_of_mem _ hu))

/-- Claim C7 (amended): for a raw query whose alias expansion succeeds — its
normalization is not the inherited-property name `"constructor"` — whenever no
candidate query string yields an exact or substring match and the combined
prefix fallback does not single out one record, the resolver returns one
`unknown` issue whose `matches` field is the (at most 8, deduplicated) prefix
suggestions for the first candidate query string; under these hypotheses that
list is in fact empty.  Over every raw query the property fails: a query
normalizing to `"constructor"` makes the resolver throw instead. -/
theorem resolve_unknown_issue (tpls : List TemplateMeta) (rawQuery : List Char)
    (expanded : List (List Char)) (hal : expandAliases rawQuery = some expanded)
    (hEx : ∀ q ∈ directQueriesFrom expanded rawQuery,
      makeExactCandidates tpls q = [] ∧ makeMatchQueryCandidates tpls q = [])
    (hFb : (dedupeTemplateIds ((directQueriesFrom expanded rawQuery).flatMap
      (fun q => makeFallbackCandidates tpls q))).length ≠ 1) :
    resolveSingleQuery tpls rawQuery =
      .ok (.inr ⟨(dedupeTemplateIds (makeFallbackCandidates tpls
          ((directQueriesFrom expanded rawQuery).headD (normalizeTemplateName rawQuery)))).take 8,
        (directQueriesFrom expanded rawQuery).headD (normalizeTemplateName rawQuery), rawQuery,
        .unknown⟩) ∧
    ((dedupeTemplateIds (makeFallbackCandidates tpls
        ((directQueriesFrom expanded rawQuery).headD
          (normalizeTemplateName rawQuery)))).take 8).length ≤ 8 := by
  have hflat : (directQueriesFrom expanded rawQuery).flatMap
      (fun q => makeFallbackCandidates tpls q) = [] := by
    rw [List.flatMap_eq_nil_iff]
    intro q hq
    exact fallback_empty (hEx q hq).2
  have hhd : makeFallbackCandidates tpls
      ((directQueriesFrom expanded rawQuery).headD (normalizeTemplateName rawQuery)) = [] :=
    fallback_empty (hEx _ (headD_mem (directQueriesFrom_ne_nil expanded rawQuery) _)).2
  constructor
  · simp only [resolveSingleQuery, hal]
    rw [resolveDirect_none hEx, hflat, hhd]
    rfl
  · rw [hhd]
    simp

set_option maxRecDepth 8000 in
/-- Counterexample to claim C7 as stated: the query `"constructor"` matches no
template of the demo index, yet the resolver does not return an `unknown`
issue — the alias lookup finds the inherited `Object.prototype.constructor`
and the `.map` call on it throws a `TypeError`. -/
theorem resolve_unknown_issue_cex :
    (∀ t ∈ demoIndex,
      templateMatchesQuery t (normalizeTemplateName (str "constructor")) = false) ∧
    resolveSingleQuery demoIndex (str "constructor") = .error .typeError := by
  decide

set_option maxRecDepth 8000 in
/-- Witness for claim C7: the query `"not-a-template"` against the demo index
satisfies the hypotheses and produces an `unknown` issue with an empty
suggestion list. -/
theorem resolve_unknown_issue_witness :
    (expandAliases (str "not-a-template") = some [str "notatemplate"] ∧
      (∀ q ∈ directQueriesFrom [str "notatemplate"] (str "not-a-template"),
        makeExactCandidates demoIndex q = [] ∧ makeMatchQueryCandidates demoIndex q = []) ∧
      (dedupeTemplateIds ((directQueriesFrom [str "notatemplate"]
          (str "not-a-template")).flatMap
        (fun q => makeFallbackCandidates demoIndex q))).length ≠ 1) ∧
    resolveSingleQuery demoIndex (str "not-a-template") =
      .ok (.inr ⟨(dedupeTemplateIds (makeFallbackCandidates demoIndex
          ((directQueriesFrom [str "notatemplate"] (str "not-a-template")).headD
            (normalizeTemplateName (str "not-a-template"))))).take 8,
        (directQueriesFrom [str "notatemplate"] (str "not-a-template")).headD
          (normalizeTemplateName (str "not-a-template")), str "not-a-template",
        .unknown⟩) ∧
    ((dedupeTemplateIds (makeFallbackCandidates demoIndex
        ((directQueriesFrom [str "notatemplate"] (str "not-a-template")).headD
          (normalizeTemplateName (str "not-a-template"))))).take 8).length ≤ 8 :=
  ⟨⟨by decide, by decide, by decide⟩,
    resolve_unknown_issue demoIndex (str "not-a-template") [str "notatemplate"]
      (by decide) (by decide) (by decide)⟩

theorem nonBlank_cons_blank {q : List Char} (qs : List (List Char)) (h : jsTrim q = []) :
    nonBlankQueries (q :: qs) = nonBlankQueries qs := by
  simp [nonBlankQueries, h]

theorem nonBlank_cons_ne {q : List Char} (qs : List (List Char)) (h : ¬ jsTrim q = []) :
    nonBlankQueries (q :: qs) = jsTrim q :: nonBlankQueries qs := by
  simp [nonBlankQueries, h]

theorem resolveQueriesAux_spec (tpls : List TemplateMeta) :
    ∀ (qs : List (List Char)) (sel : List TemplateMeta)
      (iss : List TemplateResolutionIssue) (seen : List (List Char)),
      (∀ q ∈ nonBlankQueries qs, normalizeTemplateName q ≠ str "constructor") →
      resolveQueriesAux tpls qs sel iss seen =
        .ok ⟨iss ++ resolvedIssues tpls qs,
          sel ++ dedupeTemplateIdsAux seen (resolvedMatches tpls qs)⟩ := by
  intro qs
  induction qs with
  | nil =>
    intro sel iss seen _
    simp [resolveQueriesAux, resolvedIssues, resolvedMatches, nonBlankQueries,
      dedupeTemplateIdsAux]
  | cons q rest ih =>
    intro sel iss seen hok
    by_cases hq : jsTrim q = []
    · have hstep : resolveQueriesAux tpls (q :: rest) sel iss seen =
          resolveQueriesAux tpls rest sel iss seen := by
        simp only [resolveQueriesAux]
        rw [if_pos hq]
      have h1 : resolvedIssues tpls (q :: rest) = resolvedIssues tpls rest := by
        unfold resolvedIssues
        rw [nonBlank_cons_blank rest hq]
      have h2 : resolvedMatches tpls (q :: rest) = resolvedMatches tpls rest := by
        unfold resolvedMatches
        rw [nonBlank_cons_blank rest hq]
      rw [nonBlank_cons_blank rest hq] at hok
      rw [hstep, ih sel iss seen hok, h1, h2]
    · have hok' : ∀ u ∈ nonBlankQueries rest, normalizeTemplateName u ≠ str "constructor" := by
        intro u hu
        exact hok u (by rw [nonBlank_cons_ne rest hq]; exact List.mem_cons_of_mem _ hu)
      have hmem : jsTrim q ∈ nonBlankQueries (q :: rest) := by
        rw [nonBlank_cons_ne rest hq]
        simp
      cases hres : resolveSingleQuery tpls (jsTrim q) with
      | error e =>
        exact absurd (resolveSingleQuery_error_imp hres) (hok _ hmem)
      | ok r =>
        cases r with
        | inl m =>
          have h1 : resolvedIssues tpls (q :: rest) = resolvedIssues tpls rest := by
            unfold resolvedIssues
            rw [nonBlank_cons_ne rest hq]
            simp [List.filterMap_cons, hres]
          have h2 : resolvedMatches tpls (q :: rest) =
              m.template :: resolvedMatches tpls rest := by
            unfold resolvedMatches
            rw [nonBlank_cons_ne rest hq]
            simp [List.filterMap_cons, hres]
          by_cases hseen : m.template.id ∈ seen
          · have hstep : resolveQueriesAux tpls (q :: rest) sel iss seen =
                resolveQueriesAux tpls rest sel iss seen := by
              simp only [resolveQueriesAux, hres]
              rw [if_neg hq, if_pos hseen]
            rw [hstep, ih sel iss seen hok', h1, h2]
            have hd : dedupeTemplateIdsAux seen (m.template :: resolvedMatches tpls rest) =
                if m.template.id ∈ seen then
                  dedupeTemplateIdsAux seen (resolvedMatches tpls rest)
                else m.template ::
                  dedupeTemplateIdsAux (m.template.id :: seen) (resolvedMatches tpls rest) := rfl
            rw [hd, if_pos hseen]
          · have hstep : resolveQueriesAux tpls (q :: rest) sel iss seen =
                resolveQueriesAux tpls rest (sel ++ [m.template]) iss
                  (m.template.id :: seen) := by
              simp only [resolveQueriesAux, hres]
              rw [if_neg hq, if_neg hseen]
            rw [hstep, ih (sel ++ [m.template]) iss (m.template.id :: seen) hok', h1, h2]
            have hd : dedupeTemplateIdsAux seen (m.template :: resolvedMatches tpls rest) =
                if m.template.id ∈ seen then
                  dedupeTemplateIdsAux seen (resolvedMatches tpls rest)
                else m.template ::
                  dedupeTemplateIdsAux (m.template.id :: seen) (resolvedMatches tpls rest) := rfl
            rw [hd, if_neg hseen]
            simp [List.append_assoc]
        | inr issue =>
          have h1 : resolvedIssues tpls (q :: rest) = issue :: resolvedIssues tpls rest := by
            unfold resolvedIssues
            rw [nonBlank_cons_ne rest hq]
            simp [List.filterMap_cons, hres]
          have h2 : resolvedMatches tpls (q :: rest) = resolvedMatches tpls rest := by
            unfold resolvedMatches
            rw [nonBlank_cons_ne rest hq]
            simp [List.filterMap_cons, hres]
          have hstep : resolveQueriesAux tpls (q :: rest) sel iss seen =
              resolveQueriesAux tpls rest sel (iss ++ [issue]) seen := by
            simp only [resolveQueriesAux, hres]
            rw [if_neg hq]
          rw [hstep, ih sel (iss ++ [issue]) seen hok', h1, h2]
          simp [List.append_assoc]

set_option maxRecDepth 8000 in
/-- Claim C8 (amended): on query lists in which no non-blank trimmed query
normalizes to `"constructor"`, batch resolution returns normally: it skips
blank queries, accumulates one issue per failing non-blank query in encounter
order, and accumulates the resolved records in encounter order deduplicated by
id (a repeated id is dropped silently); in particular `["node","java","node"]`
against the demo index selects `Node` then `Java` with the second `"node"`
dropped and no issues.  The claim's "never raises an exception" is false: a
query normalizing to `"constructor"` hits the inherited
`Object.prototype.constructor` in the alias table and the call throws a
`TypeError`. -/
theorem resolveTemplateQueries_characterization :
    (∀ (tpls : List TemplateMeta) (qs : List (List Char)),
      (∀ q ∈ nonBlankQueries qs, normalizeTemplateName q ≠ str "constructor") →
      resolveTemplateQueries tpls qs =
        .ok ⟨resolvedIssues tpls qs, dedupeTemplateIds (resolvedMatches tpls qs)⟩) ∧
    resolveTemplateQueries demoIndex [str "node", str "java", str "node"] =
      .ok ⟨[], [⟨str "Node", str "Node", str "Node.gitignore", .framework⟩,
        ⟨str "Java", str "Java", str "Java.gitignore", .language⟩]⟩ := by
  constructor
  · intro tpls qs hok
    unfold resolveTemplateQueries
    rw [resolveQueriesAux_spec tpls qs [] [] [] hok]
    simp [dedupeTemplateIds]
  · decide

set_option maxRecDepth 8000 in
/-- Counterexample to claim C8 as stated: resolving the batch
`["constructor"]` throws a `TypeError` instead of returning a result — the
alias table is a plain object literal, so the lookup finds the inherited
`Object.prototype.constructor` and `.map` on it is not a function. -/
theorem resolveTemplateQueries_cex :
    resolveTemplateQueries demoIndex [str "constructor"] = .error .typeError := by
  decide

set_option maxRecDepth 8000 in
/-- Witness for claim C8: no query of the batch `["node","java","node"]`
normalizes to `"constructor"`, and the characterization instantiated there
holds with the definitions evaluated. -/
theorem resolveTemplateQueries_characterization_witness :
    (∀ q ∈ nonBlankQueries [str "node", str "java", str "node"],
      normalizeTemplateName q ≠ str "constructor") ∧
    resolveTemplateQueries demoIndex [str "node", str "java", str "node"] =
      .ok ⟨resolvedIssues demoIndex [str "node", str "java", str "node"],
        dedupeTemplateIds (resolvedMatches demoIndex [str "node", str "java", str "node"])⟩ :=
  ⟨by decide,
    resolveTemplateQueries_characterization.1 demoIndex
      [str "node", str "java", str "node"] (by decide)⟩
